import Mathlib

set_option maxHeartbeats 1000000
set_option maxRecDepth 8000
set_option linter.unusedSectionVars false
set_option linter.unusedVariables false

attribute [local semireducible] Rat.add Rat.sub Rat.mul Rat.inv

/-!
Verification development for the manipulation-planning core of this repository:
the RRT* joint-space planner (`src/path_planning/rrt_star.py`), the damped
least-squares differential IK solver (`src/ik_solver/ik_solver.py`) and the
validity checker shared by the planner.

Modelling conventions.

* Scalars: the Python code computes with floats; we embed the arithmetic exactly
  over an arbitrary linear ordered field `K` (so `K = ℝ` recovers the intended
  real semantics and `K = ℚ` gives executable concrete runs).
* `np.linalg.norm` on joint-difference vectors is kept abstract in the planner
  (`Params.nrm`); every theorem that needs facts about it assumes only
  nonnegativity, which the Euclidean norm satisfies.  For one-dimensional
  configurations the Euclidean norm is exactly `fun v => |v 0|`, which is the
  instance used by all concrete runs; `sqrt_lt_iff_sq_lt` below records the
  bridge between the real square root and the square-comparison form used for
  the three-dimensional collision tests.
* `_is_collision_free` reads a fresh snapshot of the moving obstacles from the
  tracker on every call, so inside the planner it is modelled as an oracle
  indexed by a call counter: `oracle t q` is the outcome of the `t`-th validity
  call of the run, and the counter is threaded through every helper exactly in
  source order.
* Python's `float('inf')` sentinel in `_choose_parent` is modelled as `none`.
-/

namespace RRT

/-- Joint configuration: a vector of `dim` joint angles over the scalar field `K`
(numpy float arrays in the source). -/
abbrev Config (K : Type) (dim : ℕ) := Fin dim → K

/-- Planner tree state, mirroring the `self.nodes`, `self.costs`, `self.parents`
lists of `RRTStarPlanner`.  The three Python lists always share length `n`; we
store them as functions whose values are meaningful at indices `< n`, with `-1`
as the root's parent sentinel exactly as in the source. -/
structure TreeState (K : Type) (dim : ℕ) where
  n : ℕ
  node : ℕ → Config K dim
  cost : ℕ → K
  par : ℕ → ℤ

/-- Planner context: the constructor parameters of `RRTStarPlanner` together
with the two external effects the planner consults.  `nrm` models
`np.linalg.norm` on joint-space difference vectors; `oracle t q` is the result
of the `t`-th call to `_is_collision_free q` during the run (each call reads a
fresh obstacle snapshot, so distinct calls may disagree). -/
structure Params (K : Type) (dim : ℕ) where
  nrm : Config K dim → K
  oracle : ℕ → Config K dim → Bool
  stepSize : K
  searchRadius : K
  goalThreshold : K
  maxIterations : ℕ

/-- Per-iteration random input: `useGoal` is the outcome of
`random.random() < self.goal_sample_rate`, and `draws k` is the `k`-th uniform
draw made inside `_sample_random_config` during this iteration. -/
structure IterIn (K : Type) (dim : ℕ) where
  useGoal : Bool
  draws : ℕ → Config K dim

variable {K : Type} [LinearOrderedField K] {dim : ℕ}

/-- Rejection-sampling loop of `_sample_random_config` (rrt_star.py lines
241-261): up to 50 attempts, return the first draw passing the validity check;
after 50 failures return one more unchecked draw.  Returns the sample together
with the advanced oracle counter. -/
def sampleAux (P : Params K dim) (draws : ℕ → Config K dim) :
    ℕ → ℕ → ℕ → Config K dim × ℕ
  | 0, k, t => (draws k, t)
  | a + 1, k, t =>
      let c := draws k
      if P.oracle t c then (c, t + 1) else sampleAux P draws a (k + 1) (t + 1)

/-- Sampling entry point `_sample_random_config`. -/
def sampleRandomConfig (P : Params K dim) (draws : ℕ → Config K dim) (t : ℕ) :
    Config K dim × ℕ :=
  sampleAux P draws 50 0 t

/-- First index attaining the minimum of a value list, scanning left to right and
keeping the incumbent on ties; this is Python's `dists.index(min(dists))`. -/
def firstMinAux : List K → ℕ → ℕ → K → ℕ
  | [], _, bi, _ => bi
  | x :: xs, i, bi, bv =>
      if x < bv then firstMinAux xs (i + 1) i x else firstMinAux xs (i + 1) bi bv

/-- Distance list of `_find_nearest`:
`[np.linalg.norm(point - node) for node in self.nodes]`. -/
def distList (P : Params K dim) (s : TreeState K dim) (point : Config K dim) :
    List K :=
  (List.range s.n).map fun i => P.nrm (point - s.node i)

/-- Linear-scan nearest-node lookup `_find_nearest` (lines 118-128). -/
def findNearest (P : Params K dim) (s : TreeState K dim) (point : Config K dim) :
    ℕ :=
  match distList P s point with
  | [] => 0
  | d :: ds => firstMinAux ds 1 0 d

/-- Neighbour query `_find_nearby` (lines 130-143): indices of the tree nodes
within `search_radius` of `point`.  `scipy.spatial.KDTree.query_ball_point`
returns the indices at distance `≤ r`; we fix increasing index order (the order
of the node array) for the unspecified scipy ordering. -/
def findNearby (P : Params K dim) (s : TreeState K dim) (point : Config K dim) :
    List ℕ :=
  (List.range s.n).filter fun i => P.nrm (s.node i - point) ≤ P.searchRadius

/-- Steering `_steer` (lines 263-289): step from `a` toward `b` by at most
`step_size`; the candidate is kept only when the validity oracle accepts it,
otherwise the unchanged source configuration is returned.  One oracle call is
made on either branch. -/
def steer (P : Params K dim) (t : ℕ) (a b : Config K dim) : Config K dim × ℕ :=
  let dist := P.nrm (b - a)
  if dist < P.stepSize then
    if P.oracle t b then (b, t + 1) else (a, t + 1)
  else
    let dir := dist⁻¹ • (b - a)
    let c := a + P.stepSize • dir
    if P.oracle t c then (c, t + 1) else (a, t + 1)

/-- Comparison on optional costs with `none` playing `float('inf')`. -/
def optLt : Option K → Option K → Bool
  | some a, some b => decide (a < b)
  | some _, none => true
  | none, _ => false

/-- Candidate list of `_choose_parent` (lines 304-316): for each nearby index the
pair `(idx, cost_to_parent + cost_to_new)` when the re-queried validity check on
the new configuration passes, and `(idx, inf)` otherwise.  The oracle counter is
advanced once per nearby index, exactly as the source calls
`_is_collision_free` once per loop iteration. -/
def parentCosts (P : Params K dim) (s : TreeState K dim) (x : Config K dim) :
    List ℕ → ℕ → List (ℕ × Option K) × ℕ
  | [], t => ([], t)
  | i :: rest, t =>
      let v : Option K :=
        if P.oracle t x then some (s.cost i + P.nrm (s.node i - x)) else none
      let r := parentCosts P s x rest (t + 1)
      ((i, v) :: r.1, r.2)

/-- Stable minimum of the candidate list: Python `list.sort(key=cost)` is stable
and the code then takes `costs[0]`, i.e. the first pair attaining the minimum. -/
def bestPair : List (ℕ × Option K) → Option (ℕ × Option K)
  | [] => none
  | p :: ps => some (ps.foldl (fun b q => if optLt q.2 b.2 then q else b) p)

/-- Parent selection `_choose_parent` (lines 291-325): `none` models the
`(-1, float('inf'))` outcome. -/
def chooseParent (P : Params K dim) (s : TreeState K dim) (t : ℕ)
    (x : Config K dim) (nearby : List ℕ) : Option (ℕ × K) × ℕ :=
  let r := parentCosts P s x nearby t
  match bestPair r.1 with
  | none => (none, r.2)
  | some (_, none) => (none, r.2)
  | some (i, some c) => (some (i, c), r.2)

/-- Append one node to the tree: the `self.nodes.append` / `self.costs.append` /
`self.parents.append` triple of `plan`. -/
def pushNode (s : TreeState K dim) (x : Config K dim) (c : K) (p : ℤ) :
    TreeState K dim :=
  { n := s.n + 1
    node := Function.update s.node s.n x
    cost := Function.update s.cost s.n c
    par := Function.update s.par s.n p }

/-- Body of the `_rewire` loop (lines 336-351) for one nearby index `i`: skip the
new node's own parent; when routing through `newIdx` is strictly cheaper and the
re-queried validity check passes, update the parent pointer and cost of `i`.
The oracle is consulted only when the cost guard holds, as in the source. -/
def rewireOne (P : Params K dim) (newIdx i : ℕ) :
    TreeState K dim × ℕ → TreeState K dim × ℕ
  | (s, t) =>
      if (i : ℤ) = s.par newIdx then (s, t)
      else if s.cost newIdx + P.nrm (s.node i - s.node newIdx) < s.cost i then
        if P.oracle t (s.node newIdx) then
          ({ s with
             cost := Function.update s.cost i
               (s.cost newIdx + P.nrm (s.node i - s.node newIdx))
             par := Function.update s.par i (newIdx : ℤ) }, t + 1)
        else (s, t + 1)
      else (s, t)

/-- Rewiring pass `_rewire` (lines 327-351). -/
def rewire (P : Params K dim) (newIdx : ℕ) (nearby : List ℕ)
    (s : TreeState K dim) (t : ℕ) : TreeState K dim × ℕ :=
  nearby.foldl (fun st i => rewireOne P newIdx i st) (s, t)

/-- Fuel-bounded parent walk of `_extract_path` (lines 381-397).  The source
runs an unbounded `while current != -1` loop; `none` reports that the fuel ran
out before the walk reached the root sentinel.  The returned list is already in
start-to-goal order (the source appends and then reverses). -/
def extractAux (s : TreeState K dim) : ℕ → ℤ → Option (List (Config K dim))
  | 0, cur => if cur = -1 then some [] else none
  | f + 1, cur =>
      if cur = -1 then some []
      else Option.map (fun l => l ++ [s.node cur.toNat]) (extractAux s f (s.par cur.toNat))

/-- Path extraction with fuel `s.n`; the termination theorem below shows this
fuel suffices on every reachable tree state. -/
def extractPathList (s : TreeState K dim) (i : ℕ) : List (Config K dim) :=
  (extractAux s s.n (i : ℤ)).getD []

/-- Insert-rewire-and-goal phase of one `plan` iteration (lines 444-498), run
once `_choose_parent` has returned a parent `p` with cost `c`: append the new
node, rewire the nearby set, and when the new node is within `goal_threshold` of
the goal optionally attach the exact goal configuration (guarded by the `1e-6`
coincidence test and a fresh validity call), rewire again with the same nearby
set, and return the extracted path with its stored cost. -/
def afterParent (P : Params K dim) (goal : Config K dim) (s : TreeState K dim)
    (newCfg : Config K dim) (nearby : List ℕ) (p : ℕ) (c : K) (t3 : ℕ) :
    Option (List (Config K dim) × K) × TreeState K dim × ℕ :=
  let newIdx := s.n
  let s1 := pushNode s newCfg c (p : ℤ)
  let rw := rewire P newIdx nearby s1 t3
  let s2 := rw.1
  let t4 := rw.2
  if P.nrm (goal - newCfg) < P.goalThreshold then
    if 1 / 1000000 < P.nrm (newCfg - goal) then
      if P.oracle t4 goal then
        let goalIdx := s2.n
        let s3 := pushNode s2 goal (c + P.nrm (goal - newCfg)) (newIdx : ℤ)
        let rw2 := rewire P goalIdx nearby s3 (t4 + 1)
        (some (extractPathList rw2.1 goalIdx, rw2.1.cost goalIdx), rw2.1, rw2.2)
      else (some (extractPathList s2 newIdx, s2.cost newIdx), s2, t4 + 1)
    else (some (extractPathList s2 newIdx, s2.cost newIdx), s2, t4)
  else (none, s2, t4)

/-- One iteration of the `plan` main loop (lines 418-498): sample (goal-biased),
find the nearest node, steer, collect the nearby set, choose a parent (dropping
the iteration when none is found) and run the insert-rewire-goal phase, in exact
source order.  Returns an early goal result, the updated tree state and the
advanced oracle counter. -/
def planIteration (P : Params K dim) (goal : Config K dim) (inp : IterIn K dim)
    (s : TreeState K dim) (t : ℕ) :
    Option (List (Config K dim) × K) × TreeState K dim × ℕ :=
  let sres := if inp.useGoal then (goal, t) else sampleRandomConfig P inp.draws t
  let randCfg := sres.1
  let nearestIdx := findNearest P s randCfg
  let st2 := steer P sres.2 (s.node nearestIdx) randCfg
  let newCfg := st2.1
  let nearby := findNearby P s newCfg
  match chooseParent P s st2.2 newCfg nearby with
  | (none, t3) => (none, s, t3)
  | (some (p, c), t3) => afterParent P goal s newCfg nearby p c t3

/-- Main loop of `plan`: `inl` is an early goal-reached return carrying path,
cost and final state; `inr` is the state after all iterations together with the
oracle counter.  `k` indexes the per-iteration random input stream. -/
def planLoop (P : Params K dim) (goal : Config K dim) (ins : ℕ → IterIn K dim) :
    ℕ → ℕ → TreeState K dim → ℕ →
      (List (Config K dim) × K × TreeState K dim) ⊕ (TreeState K dim × ℕ)
  | 0, _, s, t => Sum.inr (s, t)
  | f + 1, k, s, t =>
      match planIteration P goal (ins k) s t with
      | (some r, s', _) => Sum.inl (r.1, r.2, s')
      | (none, s', t') => planLoop P goal ins f (k + 1) s' t'

/-- Index of the node closest to the goal (lines 500-502), first minimum of
`[np.linalg.norm(node - goal_config) for node in self.nodes]`. -/
def closestIdx (P : Params K dim) (s : TreeState K dim) (goal : Config K dim) :
    ℕ :=
  match (List.range s.n).map (fun i => P.nrm (s.node i - goal)) with
  | [] => 0
  | d :: ds => firstMinAux ds 1 0 d

/-- Initial tree of `plan` (lines 412-414): the root `start_config` with cost `0`
and parent `-1`. -/
def initState (start : Config K dim) : TreeState K dim :=
  { n := 1, node := fun _ => start, cost := fun _ => 0, par := fun _ => -1 }

/-- Full `plan` run (lines 399-508), returning the path, its cost and the final
planner tree state (the `nodes`/`costs`/`parents` attributes after the call). -/
def plan (P : Params K dim) (start goal : Config K dim) (ins : ℕ → IterIn K dim) :
    List (Config K dim) × K × TreeState K dim :=
  match planLoop P goal ins P.maxIterations 0 (initState start) 0 with
  | Sum.inl r => r
  | Sum.inr (s, _) =>
      (extractPathList s (closestIdx P s goal), s.cost (closestIdx P s goal), s)

/-- Tree state after rewiring node `i` through node `j`: the two in-place
assignments `self.parents[idx] = new_node_idx` and
`self.costs[idx] = cost_through_new` of `_rewire`. -/
def rwState (nrm : Config K dim → K) (s : TreeState K dim) (j i : ℕ) :
    TreeState K dim :=
  { s with
    cost := Function.update s.cost i (s.cost j + nrm (s.node i - s.node j))
    par := Function.update s.par i (j : ℤ) }

/-- Mutation step relation on tree states.  The refinement lemmas below show
that `plan` modifies the tree in exactly two ways: appending a node whose parent
is an existing index and whose stored cost is the parent's cost plus the
joint-space distance of the new edge, and rewiring an existing node `i` through
a node `j` under the strict-improvement guard of `_rewire`.  `V x` records that
`x` passed a validity call before insertion. -/
inductive Step (nrm : Config K dim → K) (V : Config K dim → Prop) :
    TreeState K dim → TreeState K dim → Prop
  | push (s : TreeState K dim) (x : Config K dim) (p : ℕ) (c : K)
      (hp : p < s.n)
      (hc : c = s.cost p + nrm (s.node p - x) ∨ c = s.cost p + nrm (x - s.node p))
      (hx : V x) :
      Step nrm V s (pushNode s x c (p : ℤ))
  | rewire (s : TreeState K dim) (j i : ℕ) (hj : j < s.n) (hi : i < s.n)
      (hg : s.cost j + nrm (s.node i - s.node j) < s.cost i) :
      Step nrm V s (rwState nrm s j i)

/-- Parent-step relation: `pstep s y x` holds when the non-root node `x` has
parent `y`; the `while` loop of `_extract_path` follows exactly this relation. -/
def pstep (s : TreeState K dim) (y x : ℕ) : Prop :=
  x < s.n ∧ 0 < x ∧ s.par x = (y : ℤ)

/-- Invariant satisfied by every tree state reachable during a `plan` run:
the root keeps its initial data, parent indices of non-root nodes are in range,
stored costs are nonnegative and monotone along parent edges, every non-root
node passed a validity call, and the parent relation is well founded. -/
structure Inv (nrm : Config K dim → K) (start : Config K dim)
    (V : Config K dim → Prop) (s : TreeState K dim) : Prop where
  npos : 1 ≤ s.n
  node0 : s.node 0 = start
  par0 : s.par 0 = -1
  cost0 : s.cost 0 = 0
  costNonneg : ∀ i, i < s.n → 0 ≤ s.cost i
  parRange : ∀ i, 0 < i → i < s.n → 0 ≤ s.par i ∧ (s.par i).toNat < s.n
  mono : ∀ i, 0 < i → i < s.n → s.cost (s.par i).toNat ≤ s.cost i
  valid : ∀ i, 0 < i → i < s.n → V (s.node i)
  acc : ∀ i, i < s.n → Acc (pstep s) i

variable {nrm : Config K dim → K} {start : Config K dim} {V : Config K dim → Prop}
variable {s : TreeState K dim}

theorem inv_init : Inv nrm start V (initState start) := by
  constructor
  · exact le_refl 1
  · rfl
  · rfl
  · rfl
  · intro i _; exact le_refl 0
  · intro i h0 h1; simp only [initState] at h1; omega
  · intro i h0 h1; simp only [initState] at h1; omega
  · intro i h0 h1; simp only [initState] at h1; omega
  · intro i _
    refine Acc.intro i ?_
    intro y hy
    obtain ⟨h1, h2, -⟩ := hy
    simp only [initState] at h1
    omega

theorem pushNode_n {x : Config K dim} {c : K} {p : ℤ} :
    (pushNode s x c p).n = s.n + 1 := rfl

theorem pushNode_node_lt {x : Config K dim} {c : K} {p : ℤ} {i : ℕ} (hi : i ≠ s.n) :
    (pushNode s x c p).node i = s.node i := Function.update_noteq hi _ _

theorem pushNode_node_last {x : Config K dim} {c : K} {p : ℤ} :
    (pushNode s x c p).node s.n = x := Function.update_same _ _ _

theorem pushNode_cost_lt {x : Config K dim} {c : K} {p : ℤ} {i : ℕ} (hi : i ≠ s.n) :
    (pushNode s x c p).cost i = s.cost i := Function.update_noteq hi _ _

theorem pushNode_cost_last {x : Config K dim} {c : K} {p : ℤ} :
    (pushNode s x c p).cost s.n = c := Function.update_same _ _ _

theorem pushNode_par_lt {x : Config K dim} {c : K} {p : ℤ} {i : ℕ} (hi : i ≠ s.n) :
    (pushNode s x c p).par i = s.par i := Function.update_noteq hi _ _

theorem pushNode_par_last {x : Config K dim} {c : K} {p : ℤ} :
    (pushNode s x c p).par s.n = p := Function.update_same _ _ _

theorem acc_push (h : Inv nrm start V s) {x : Config K dim} {c : K} {p : ℤ} :
    ∀ i, Acc (pstep s) i → i < s.n → Acc (pstep (pushNode s x c p)) i := by
  intro i hacc
  induction hacc with
  | intro z _ ih =>
    intro hz
    refine Acc.intro z ?_
    intro y hy
    obtain ⟨h1, h2, h3⟩ := hy
    rw [pushNode_par_lt (by omega)] at h3
    have hys : pstep s y z := ⟨hz, h2, h3⟩
    have hylt : y < s.n := by
      have := (h.parRange z h2 hz).2
      rw [h3] at this
      simpa using this
    exact ih y hys hylt

theorem inv_push (h : Inv nrm start V s) (hn : ∀ v, 0 ≤ nrm v)
    {x : Config K dim} {p : ℕ} {c : K} (hp : p < s.n)
    (hc : c = s.cost p + nrm (s.node p - x) ∨ c = s.cost p + nrm (x - s.node p))
    (hx : V x) : Inv nrm start V (pushNode s x c (p : ℤ)) := by
  have hcost : s.cost p ≤ c := by
    rcases hc with hc | hc <;> rw [hc] <;> exact le_add_of_nonneg_right (hn _)
  have hn0 : (0 : ℕ) < s.n := h.npos
  constructor
  · exact le_trans h.npos (Nat.le_succ _)
  · rw [pushNode_node_lt (by omega)]; exact h.node0
  · rw [pushNode_par_lt (by omega)]; exact h.par0
  · rw [pushNode_cost_lt (by omega)]; exact h.cost0
  · intro i hi
    rw [pushNode_n] at hi
    rcases Nat.lt_or_ge i s.n with hlt | hge
    · rw [pushNode_cost_lt (by omega)]
      exact h.costNonneg i hlt
    · have hieq : i = s.n := by omega
      rw [hieq, pushNode_cost_last]
      exact le_trans (h.costNonneg p hp) hcost
  · intro i h0 hi
    rw [pushNode_n] at hi
    rw [pushNode_n]
    rcases Nat.lt_or_ge i s.n with hlt | hge
    · rw [pushNode_par_lt (by omega)]
      exact ⟨(h.parRange i h0 hlt).1, lt_trans (h.parRange i h0 hlt).2 (Nat.lt_succ_self _)⟩
    · have hieq : i = s.n := by omega
      rw [hieq, pushNode_par_last]
      refine ⟨Int.natCast_nonneg p, ?_⟩
      simpa using Nat.lt_succ_of_lt hp
  · intro i h0 hi
    rw [pushNode_n] at hi
    rcases Nat.lt_or_ge i s.n with hlt | hge
    · have hplt : (s.par i).toNat < s.n := (h.parRange i h0 hlt).2
      rw [pushNode_par_lt (by omega), pushNode_cost_lt (by omega),
        pushNode_cost_lt (by omega : i ≠ s.n)]
      exact h.mono i h0 hlt
    · have hieq : i = s.n := by omega
      rw [hieq, pushNode_par_last]
      have htn : ((p : ℤ)).toNat = p := by simp
      rw [htn, pushNode_cost_lt (by omega), pushNode_cost_last]
      exact hcost
  · intro i h0 hi
    rw [pushNode_n] at hi
    rcases Nat.lt_or_ge i s.n with hlt | hge
    · rw [pushNode_node_lt (by omega)]
      exact h.valid i h0 hlt
    · have hieq : i = s.n := by omega
      rw [hieq, pushNode_node_last]
      exact hx
  · intro i hi
    rw [pushNode_n] at hi
    rcases Nat.lt_or_ge i s.n with hlt | hge
    · exact acc_push h i (h.acc i hlt) hlt
    · have hieq : i = s.n := by omega
      refine Acc.intro i ?_
      intro y hy
      obtain ⟨h1, h2, h3⟩ := hy
      rw [hieq, pushNode_par_last] at h3
      have hyp : y = p := by exact_mod_cast h3.symm
      rw [hyp]
      exact acc_push h p (h.acc p hp) hp

theorem rwState_n {j i : ℕ} : (rwState nrm s j i).n = s.n := rfl

theorem rwState_node {j i x : ℕ} : (rwState nrm s j i).node x = s.node x := rfl

theorem rwState_cost_ne {j i x : ℕ} (hx : x ≠ i) :
    (rwState nrm s j i).cost x = s.cost x := Function.update_noteq hx _ _

theorem rwState_cost_self {j i : ℕ} :
    (rwState nrm s j i).cost i = s.cost j + nrm (s.node i - s.node j) :=
  Function.update_same _ _ _

theorem rwState_par_ne {j i x : ℕ} (hx : x ≠ i) :
    (rwState nrm s j i).par x = s.par x := Function.update_noteq hx _ _

theorem rwState_par_self {j i : ℕ} : (rwState nrm s j i).par i = (j : ℤ) :=
  Function.update_same _ _ _

/-- Accessibility transfer along a rewire, restricted to nodes whose stored cost
is at most the through-node's cost: by cost monotonicity no parent chain from
such a node can pass through the rewired node `i`, so the chain is unchanged. -/
theorem acc_rewire_aux (h : Inv nrm start V s) (hn : ∀ v, 0 ≤ nrm v)
    {j i : ℕ} (hj : j < s.n) (hi : i < s.n)
    (hg : s.cost j + nrm (s.node i - s.node j) < s.cost i) :
    ∀ x, Acc (pstep s) x → x < s.n → s.cost x ≤ s.cost j →
      Acc (pstep (rwState nrm s j i)) x := by
  have hji : s.cost j < s.cost i :=
    lt_of_le_of_lt (le_add_of_nonneg_right (hn _)) hg
  intro x hacc
  induction hacc with
  | intro z _ ih =>
    intro hz hzle
    have hzi : z ≠ i := by
      intro hzi
      rw [hzi] at hzle
      exact absurd (lt_of_lt_of_le hji hzle) (lt_irrefl _)
    refine Acc.intro z ?_
    intro y hy
    obtain ⟨h1, h2, h3⟩ := hy
    rw [rwState_par_ne hzi] at h3
    have hys : pstep s y z := ⟨hz, h2, h3⟩
    have hylt : y < s.n := by
      have := (h.parRange z h2 hz).2
      rw [h3] at this
      simpa using this
    have hyle : s.cost y ≤ s.cost j := by
      have hm := h.mono z h2 hz
      rw [h3] at hm
      simp only [Int.toNat_natCast] at hm
      exact le_trans hm hzle
    exact ih y hys hylt hyle

/-- Accessibility of every node is preserved by a rewire step. -/
theorem acc_rewire (h : Inv nrm start V s) (hn : ∀ v, 0 ≤ nrm v)
    {j i : ℕ} (hj : j < s.n) (hi : i < s.n)
    (hg : s.cost j + nrm (s.node i - s.node j) < s.cost i) :
    ∀ x, Acc (pstep s) x → x < s.n → Acc (pstep (rwState nrm s j i)) x := by
  intro x hacc
  induction hacc with
  | intro z _ ih =>
    intro hz
    refine Acc.intro z ?_
    intro y hy
    obtain ⟨h1, h2, h3⟩ := hy
    by_cases hzi : z = i
    · rw [hzi, rwState_par_self] at h3
      have hyj : y = j := by exact_mod_cast h3.symm
      rw [hyj]
      exact acc_rewire_aux h hn hj hi hg j (h.acc j hj) hj (le_refl _)
    · rw [rwState_par_ne hzi] at h3
      have hys : pstep s y z := ⟨hz, h2, h3⟩
      have hylt : y < s.n := by
        have := (h.parRange z h2 hz).2
        rw [h3] at this
        simpa using this
      exact ih y hys hylt

theorem inv_rewire (h : Inv nrm start V s) (hn : ∀ v, 0 ≤ nrm v)
    {j i : ℕ} (hj : j < s.n) (hi : i < s.n)
    (hg : s.cost j + nrm (s.node i - s.node j) < s.cost i) :
    Inv nrm start V (rwState nrm s j i) := by
  have hi0 : 0 < i := by
    rcases Nat.eq_zero_or_pos i with hz | hp
    · exfalso
      rw [hz, h.cost0] at hg
      exact absurd hg (not_lt.mpr (add_nonneg (h.costNonneg j hj) (hn _)))
    · exact hp
  have hij : i ≠ j := by
    intro hije
    rw [hije] at hg
    have : (0 : K) ≤ nrm (s.node j - s.node j) := hn _
    have hlt : s.cost j < s.cost j := lt_of_le_of_lt (le_add_of_nonneg_right this) hg
    exact absurd hlt (lt_irrefl _)
  constructor
  · exact h.npos
  · exact h.node0
  · rw [rwState_par_ne (by omega)]; exact h.par0
  · rw [rwState_cost_ne (by omega)]; exact h.cost0
  · intro x hx
    rw [rwState_n] at hx
    by_cases hxi : x = i
    · rw [hxi, rwState_cost_self]
      exact add_nonneg (h.costNonneg j hj) (hn _)
    · rw [rwState_cost_ne hxi]
      exact h.costNonneg x hx
  · intro x h0 hx
    rw [rwState_n] at hx
    rw [rwState_n]
    by_cases hxi : x = i
    · rw [hxi, rwState_par_self]
      exact ⟨Int.natCast_nonneg j, by simpa using hj⟩
    · rw [rwState_par_ne hxi]
      exact h.parRange x h0 hx
  · intro x h0 hx
    rw [rwState_n] at hx
    by_cases hxi : x = i
    · rw [hxi, rwState_par_self, rwState_cost_self]
      simp only [Int.toNat_natCast]
      rw [rwState_cost_ne (by omega : j ≠ i)]
      exact le_add_of_nonneg_right (hn _)
    · rw [rwState_par_ne hxi, rwState_cost_ne hxi]
      by_cases hpi : (s.par x).toNat = i
      · rw [hpi, rwState_cost_self]
        have := h.mono x h0 hx
        rw [hpi] at this
        exact le_trans (le_of_lt hg) this
      · rw [rwState_cost_ne hpi]
        exact h.mono x h0 hx
  · intro x h0 hx
    rw [rwState_n] at hx
    rw [rwState_node]
    exact h.valid x h0 hx
  · intro x hx
    rw [rwState_n] at hx
    exact acc_rewire h hn hj hi hg x (h.acc x hx) hx

/-- Reachability of a tree state from the initial tree by planner mutations. -/
def Reach (nrm : Config K dim → K) (start : Config K dim)
    (V : Config K dim → Prop) (s : TreeState K dim) : Prop :=
  Relation.ReflTransGen (Step nrm V) (initState start) s

theorem inv_of_reach (hn : ∀ v, 0 ≤ nrm v) (h : Reach nrm start V s) :
    Inv nrm start V s := by
  induction h with
  | refl => exact inv_init
  | tail hab hbc ih =>
    cases hbc with
    | push x p c hp hc hx => exact inv_push ih hn hp hc hx
    | rewire j i hj hi hg => exact inv_rewire ih hn hj hi hg

/-- One step of the `_extract_path` cursor: a non-root cursor moves to its
parent index, the root sentinel `-1` stays put. -/
def pnext (s : TreeState K dim) (c : ℤ) : ℤ :=
  if c = -1 then -1 else s.par c.toNat

theorem acc_no_self_rel {α : Type} {r : α → α → Prop} {a : α} (h : Acc r a) :
    ¬ r a a := by
  induction h with
  | intro x hx ih => exact fun hr => ih x hr hr

/-- Pigeonhole argument: on an invariant-satisfying tree the parent walk from
any node reaches the root sentinel within `s.n` steps; a longer walk would
repeat an index and close a `pstep` cycle, contradicting accessibility. -/
theorem walk_reaches_root (h : Inv nrm start V s) :
    ∀ i, i < s.n → ∃ k, k ≤ s.n ∧ (pnext s)^[k] (i : ℤ) = -1 := by
  intro i hi
  by_contra hcon
  push_neg at hcon
  have hW : ∀ k, k ≤ s.n → 0 ≤ (pnext s)^[k] (i : ℤ) ∧
      ((pnext s)^[k] (i : ℤ)).toNat < s.n := by
    intro k
    induction k with
    | zero => intro _; simpa using hi
    | succ k ih =>
      intro hk
      have hk' : k ≤ s.n := by omega
      obtain ⟨hnn, hlt⟩ := ih hk'
      have hne : (pnext s)^[k] (i : ℤ) ≠ -1 := hcon k hk'
      rw [Function.iterate_succ_apply']
      rw [pnext, if_neg hne]
      rcases Nat.eq_zero_or_pos ((pnext s)^[k] (i : ℤ)).toNat with hz | hp
      · exfalso
        have : (pnext s)^[k + 1] (i : ℤ) = -1 := by
          rw [Function.iterate_succ_apply', pnext, if_neg hne, hz, h.par0]
        exact hcon (k + 1) hk this
      · exact (h.parRange _ hp hlt).imp id (fun h2 => h2)
  have hS : ∀ k, k < s.n → pstep s ((pnext s)^[k + 1] (i : ℤ)).toNat
      ((pnext s)^[k] (i : ℤ)).toNat := by
    intro k hk
    have hk' : k ≤ s.n := by omega
    obtain ⟨hnn, hlt⟩ := hW k hk'
    have hne : (pnext s)^[k] (i : ℤ) ≠ -1 := hcon k hk'
    have hp : 0 < ((pnext s)^[k] (i : ℤ)).toNat := by
      rcases Nat.eq_zero_or_pos ((pnext s)^[k] (i : ℤ)).toNat with hz | hp
      · exfalso
        have : (pnext s)^[k + 1] (i : ℤ) = -1 := by
          rw [Function.iterate_succ_apply', pnext, if_neg hne, hz, h.par0]
        exact hcon (k + 1) (by omega) this
      · exact hp
    refine ⟨hlt, hp, ?_⟩
    have hstep : (pnext s)^[k + 1] (i : ℤ) = s.par ((pnext s)^[k] (i : ℤ)).toNat := by
      rw [Function.iterate_succ_apply', pnext, if_neg hne]
    obtain ⟨hnn', _⟩ := hW (k + 1) (by omega)
    rw [hstep]
    rw [hstep] at hnn'
    exact (Int.toNat_of_nonneg hnn').symm
  have hchain : ∀ m k₁, 1 ≤ m → k₁ + m ≤ s.n →
      Relation.TransGen (pstep s) ((pnext s)^[k₁ + m] (i : ℤ)).toNat
        ((pnext s)^[k₁] (i : ℤ)).toNat := by
    intro m
    induction m with
    | zero => intro k₁ hm; omega
    | succ m ih =>
      intro k₁ hm hle
      rcases Nat.eq_zero_or_pos m with hz | hp
      · rw [hz]
        exact Relation.TransGen.single (hS k₁ (by omega))
      · have hmid := ih k₁ (by omega) (by omega)
        have hstep := hS (k₁ + m) (by omega)
        have : k₁ + (m + 1) = (k₁ + m) + 1 := by omega
        rw [this]
        exact Relation.TransGen.head hstep hmid
  have hcard : Fintype.card (Fin s.n) < Fintype.card (Fin (s.n + 1)) := by
    simp
  obtain ⟨k₁, k₂, hne12, heq⟩ := Fintype.exists_ne_map_eq_of_card_lt
    (fun k : Fin (s.n + 1) => (⟨((pnext s)^[(k : ℕ)] (i : ℤ)).toNat,
      (hW k (by omega)).2⟩ : Fin s.n)) hcard
  have heqv : ((pnext s)^[(k₁ : ℕ)] (i : ℤ)).toNat =
      ((pnext s)^[(k₂ : ℕ)] (i : ℤ)).toNat := congrArg Fin.val heq
  rcases Nat.lt_or_ge (k₁ : ℕ) (k₂ : ℕ) with hlt12 | hge12
  · have hcyc := hchain ((k₂ : ℕ) - (k₁ : ℕ)) (k₁ : ℕ) (by omega) (by omega)
    rw [show (k₁ : ℕ) + ((k₂ : ℕ) - (k₁ : ℕ)) = (k₂ : ℕ) from by omega, heqv] at hcyc
    have hacc := (h.acc _ (hW (k₂ : ℕ) (by omega)).2).transGen
    exact acc_no_self_rel hacc hcyc
  · have hlt21 : (k₂ : ℕ) < (k₁ : ℕ) := by
      rcases Nat.lt_or_ge (k₂ : ℕ) (k₁ : ℕ) with hl | hg
      · exact hl
      · exfalso
        exact hne12 (Fin.ext (by omega))
    have hcyc := hchain ((k₁ : ℕ) - (k₂ : ℕ)) (k₂ : ℕ) (by omega) (by omega)
    rw [show (k₂ : ℕ) + ((k₁ : ℕ) - (k₂ : ℕ)) = (k₁ : ℕ) from by omega, ← heqv] at hcyc
    have hacc := (h.acc _ (hW (k₁ : ℕ) (by omega)).2).transGen
    exact acc_no_self_rel hacc hcyc

theorem extractAux_sentinel : ∀ f, extractAux s f (-1) = some [] := by
  intro f
  cases f <;> simp [extractAux]

/-- Fuel-indexed correctness of `_extract_path`: when the parent walk reaches
the sentinel within the fuel bound, extraction succeeds, the path is nonempty
and its first element is the root's configuration. -/
theorem extractAux_some (h : Inv nrm start V s) :
    ∀ fuel (i : ℕ), i < s.n → (∃ k, k ≤ fuel ∧ (pnext s)^[k] (i : ℤ) = -1) →
      ∃ l, extractAux s fuel (i : ℤ) = some l ∧ l ≠ [] ∧
        l.head? = some (s.node 0) := by
  intro fuel
  induction fuel with
  | zero =>
    intro i hi hk
    obtain ⟨k, hk0, hkv⟩ := hk
    interval_cases k
    simp only [Function.iterate_zero_apply] at hkv
    exact absurd hkv (by omega)
  | succ fuel ih =>
    intro i hi hk
    obtain ⟨k, hk0, hkv⟩ := hk
    have hne : ((i : ℕ) : ℤ) ≠ -1 := by omega
    rcases Nat.eq_zero_or_pos i with hz | hp
    · refine ⟨[s.node 0], ?_, by simp, by simp⟩
      rw [hz]
      show extractAux s (fuel + 1) ((0 : ℕ) : ℤ) = some [s.node 0]
      simp only [extractAux, if_neg (show ((0 : ℕ) : ℤ) ≠ -1 by omega)]
      have hpz : s.par (((0 : ℕ) : ℤ)).toNat = -1 := by simpa using h.par0
      rw [hpz, extractAux_sentinel]
      simp
    · have hk1 : k ≠ 0 := by
        intro hk00
        rw [hk00] at hkv
        simp only [Function.iterate_zero_apply] at hkv
        omega
      obtain ⟨k', rfl⟩ := Nat.exists_eq_succ_of_ne_zero hk1
      have hpr := h.parRange i hp hi
      have hiter : (pnext s)^[k' + 1] (i : ℤ) =
          (pnext s)^[k'] (s.par ((i : ℤ)).toNat) := by
        rw [Function.iterate_succ_apply, pnext, if_neg hne]
      rw [hiter] at hkv
      have hcast : s.par ((i : ℤ)).toNat = (((s.par i).toNat : ℕ) : ℤ) := by
        simp only [Int.toNat_natCast]
        exact (Int.toNat_of_nonneg hpr.1).symm
      rw [hcast] at hkv
      obtain ⟨l', hl1, hl2, hl3⟩ := ih (s.par i).toNat hpr.2 ⟨k', by omega, hkv⟩
      refine ⟨l' ++ [s.node i], ?_, by simp, ?_⟩
      · simp only [extractAux, if_neg hne, Int.toNat_natCast]
        rw [show s.par i = (((s.par i).toNat : ℕ) : ℤ) from
          (Int.toNat_of_nonneg hpr.1).symm, hl1]
        rfl
      · rw [List.head?_append_of_ne_nil l' hl2]
        exact hl3

/-- Record that a configuration passed some `_is_collision_free` call. -/
def Validated (P : Params K dim) : Config K dim → Prop :=
  fun x => ∃ tt, P.oracle tt x = true

theorem findNearby_lt (P : Params K dim) (s : TreeState K dim)
    (x : Config K dim) : ∀ i ∈ findNearby P s x, i < s.n := by
  intro i hi
  have := List.mem_filter.mp hi
  simpa using List.mem_range.mp this.1

theorem foldl_pick_mem {α : Type} (f : α → α → α)
    (hf : ∀ b q, f b q = b ∨ f b q = q) :
    ∀ (l : List α) (a : α), l.foldl f a ∈ a :: l := by
  intro l
  induction l with
  | nil => intro a; simp
  | cons x xs ih =>
    intro a
    rw [List.foldl_cons]
    rcases List.mem_cons.mp (ih (f a x)) with heq | hmem
    · rcases hf a x with hfa | hfx
      · rw [heq, hfa]
        exact List.mem_cons_self _ _
      · rw [heq, hfx]
        exact List.mem_cons_of_mem _ (List.mem_cons_self _ _)
    · exact List.mem_cons_of_mem _ (List.mem_cons_of_mem _ hmem)

theorem bestPair_mem (l : List (ℕ × Option K)) (q : ℕ × Option K)
    (h : bestPair l = some q) : q ∈ l := by
  cases l with
  | nil => simp [bestPair] at h
  | cons p ps =>
    simp only [bestPair, Option.some_inj] at h
    have := foldl_pick_mem (fun b q => if optLt q.2 b.2 then q else b)
      (by intro b q; by_cases hc : optLt q.2 b.2 <;> simp [hc]) ps p
    rw [h] at this
    exact this

theorem parentCosts_mem (P : Params K dim) (s : TreeState K dim)
    (x : Config K dim) :
    ∀ (l : List ℕ) (t : ℕ) (pr : ℕ × Option K), pr ∈ (parentCosts P s x l t).1 →
      pr.1 ∈ l ∧ ∀ c0, pr.2 = some c0 →
        c0 = s.cost pr.1 + P.nrm (s.node pr.1 - x) ∧ ∃ tt, P.oracle tt x = true := by
  intro l
  induction l with
  | nil => intro t pr h; simp [parentCosts] at h
  | cons i rest ih =>
    intro t pr h
    simp only [parentCosts, List.mem_cons] at h
    rcases h with heq | hmem
    · subst heq
      refine ⟨List.mem_cons_self _ _, ?_⟩
      intro c0 hc0
      simp only at hc0
      by_cases ho : P.oracle t x = true
      · rw [if_pos ho] at hc0
        exact ⟨by simpa using hc0.symm, t, ho⟩
      · rw [if_neg ho] at hc0
        exact absurd hc0 (by simp)
    · have := ih (t + 1) pr hmem
      exact ⟨List.mem_cons_of_mem _ this.1, this.2⟩

theorem chooseParent_spec (P : Params K dim) (s : TreeState K dim) (t : ℕ)
    (x : Config K dim) (nearby : List ℕ) {p : ℕ} {c : K} {t' : ℕ}
    (h : chooseParent P s t x nearby = (some (p, c), t')) :
    p ∈ nearby ∧ c = s.cost p + P.nrm (s.node p - x) ∧
      ∃ tt, P.oracle tt x = true := by
  simp only [chooseParent] at h
  split at h
  · simp at h
  · simp at h
  · rename_i i c0 hb
    simp only [Prod.mk.injEq, Option.some_inj] at h
    obtain ⟨⟨hip, hcc⟩, -⟩ := h
    have hmem := bestPair_mem _ _ hb
    have hsp := parentCosts_mem P s x nearby t _ hmem
    have hval := hsp.2 c0 rfl
    rw [← hip, ← hcc]
    exact ⟨hsp.1, hval.1, hval.2⟩

theorem rewireOne_n (P : Params K dim) (newIdx i : ℕ) (st : TreeState K dim × ℕ) :
    (rewireOne P newIdx i st).1.n = st.1.n := by
  obtain ⟨s0, t0⟩ := st
  by_cases h1 : (i : ℤ) = s0.par newIdx
  · simp [rewireOne, h1]
  · by_cases h2 : s0.cost newIdx + P.nrm (s0.node i - s0.node newIdx) < s0.cost i
    · by_cases h3 : P.oracle t0 (s0.node newIdx) <;> simp [rewireOne, h1, h2, h3]
    · simp [rewireOne, h1, h2]

theorem rewireOne_node (P : Params K dim) (newIdx i : ℕ)
    (st : TreeState K dim × ℕ) :
    (rewireOne P newIdx i st).1.node = st.1.node := by
  obtain ⟨s0, t0⟩ := st
  by_cases h1 : (i : ℤ) = s0.par newIdx
  · simp [rewireOne, h1]
  · by_cases h2 : s0.cost newIdx + P.nrm (s0.node i - s0.node newIdx) < s0.cost i
    · by_cases h3 : P.oracle t0 (s0.node newIdx) <;> simp [rewireOne, h1, h2, h3]
    · simp [rewireOne, h1, h2]

theorem rewireOne_other (P : Params K dim) (newIdx i : ℕ)
    (st : TreeState K dim × ℕ) {x : ℕ} (hx : x ≠ i) :
    (rewireOne P newIdx i st).1.cost x = st.1.cost x ∧
      (rewireOne P newIdx i st).1.par x = st.1.par x := by
  obtain ⟨s0, t0⟩ := st
  by_cases h1 : (i : ℤ) = s0.par newIdx
  · simp [rewireOne, h1]
  · by_cases h2 : s0.cost newIdx + P.nrm (s0.node i - s0.node newIdx) < s0.cost i
    · by_cases h3 : P.oracle t0 (s0.node newIdx)
      · simp only [rewireOne, if_neg h1, if_pos h2, if_pos h3]
        exact ⟨Function.update_noteq hx _ _, Function.update_noteq hx _ _⟩
      · simp [rewireOne, h1, h2, h3]
    · simp [rewireOne, h1, h2]

theorem rewireOne_cases (P : Params K dim) {V : Config K dim → Prop}
    (newIdx i : ℕ) (st : TreeState K dim × ℕ)
    (hi : i < st.1.n) (hnew : newIdx < st.1.n) :
    (rewireOne P newIdx i st).1 = st.1 ∨
      Step P.nrm V st.1 (rewireOne P newIdx i st).1 := by
  obtain ⟨s0, t0⟩ := st
  by_cases h1 : (i : ℤ) = s0.par newIdx
  · exact Or.inl (by simp [rewireOne, h1])
  · by_cases h2 : s0.cost newIdx + P.nrm (s0.node i - s0.node newIdx) < s0.cost i
    · by_cases h3 : P.oracle t0 (s0.node newIdx)
      · refine Or.inr ?_
        have hred : (rewireOne P newIdx i (s0, t0)).1 = rwState P.nrm s0 newIdx i := by
          simp only [rewireOne, if_neg h1, if_pos h2, if_pos h3]
          rfl
        rw [hred]
        exact Step.rewire s0 newIdx i hnew hi h2
      · exact Or.inl (by simp [rewireOne, h1, h2, h3])
    · exact Or.inl (by simp [rewireOne, h1, h2])

theorem rewire_reach (P : Params K dim) {V : Config K dim → Prop} (newIdx : ℕ) :
    ∀ (nearby : List ℕ) (s : TreeState K dim) (t : ℕ),
      (∀ i ∈ nearby, i < s.n) → newIdx < s.n →
      Relation.ReflTransGen (Step P.nrm V) s (rewire P newIdx nearby s t).1 := by
  intro nearby
  induction nearby with
  | nil => intro s t _ _; exact Relation.ReflTransGen.refl
  | cons i rest ih =>
    intro s t hmem hnew
    have hstep := rewireOne_cases P (V := V) newIdx i (s, t)
      (hmem i (List.mem_cons_self _ _)) hnew
    have hn := rewireOne_n P newIdx i (s, t)
    have htail := ih (rewireOne P newIdx i (s, t)).1 (rewireOne P newIdx i (s, t)).2
      (fun x hx => by rw [hn]; exact hmem x (List.mem_cons_of_mem _ hx))
      (by rw [hn]; exact hnew)
    have hfold : rewire P newIdx (i :: rest) s t =
        rewire P newIdx rest (rewireOne P newIdx i (s, t)).1
          (rewireOne P newIdx i (s, t)).2 := by
      unfold rewire
      rw [List.foldl_cons]
    rcases hstep with heq | hstep
    · have heq' : (rewireOne P newIdx i (s, t)).1 = s := heq
      rw [hfold, heq']
      rw [heq'] at htail
      exact htail
    · rw [hfold]
      exact Relation.ReflTransGen.trans (Relation.ReflTransGen.single hstep) htail

theorem rewire_n (P : Params K dim) (newIdx : ℕ) :
    ∀ (nearby : List ℕ) (s : TreeState K dim) (t : ℕ),
      (rewire P newIdx nearby s t).1.n = s.n := by
  intro nearby
  induction nearby with
  | nil => intro s t; rfl
  | cons i rest ih =>
    intro s t
    have hfold : rewire P newIdx (i :: rest) s t =
        rewire P newIdx rest (rewireOne P newIdx i (s, t)).1
          (rewireOne P newIdx i (s, t)).2 := by
      unfold rewire
      rw [List.foldl_cons]
    rw [hfold, ih, rewireOne_n]

theorem rewire_node (P : Params K dim) (newIdx : ℕ) :
    ∀ (nearby : List ℕ) (s : TreeState K dim) (t : ℕ),
      (rewire P newIdx nearby s t).1.node = s.node := by
  intro nearby
  induction nearby with
  | nil => intro s t; rfl
  | cons i rest ih =>
    intro s t
    have hfold : rewire P newIdx (i :: rest) s t =
        rewire P newIdx rest (rewireOne P newIdx i (s, t)).1
          (rewireOne P newIdx i (s, t)).2 := by
      unfold rewire
      rw [List.foldl_cons]
    rw [hfold, ih, rewireOne_node]

theorem rewire_cost_notmem (P : Params K dim) (newIdx : ℕ) :
    ∀ (nearby : List ℕ) (s : TreeState K dim) (t : ℕ) (x : ℕ),
      (∀ i ∈ nearby, x ≠ i) →
      (rewire P newIdx nearby s t).1.cost x = s.cost x := by
  intro nearby
  induction nearby with
  | nil => intro s t x _; rfl
  | cons i rest ih =>
    intro s t x hx
    have hfold : rewire P newIdx (i :: rest) s t =
        rewire P newIdx rest (rewireOne P newIdx i (s, t)).1
          (rewireOne P newIdx i (s, t)).2 := by
      unfold rewire
      rw [List.foldl_cons]
    rw [hfold, ih _ _ x (fun j hj => hx j (List.mem_cons_of_mem _ hj))]
    exact (rewireOne_other P newIdx i (s, t) (hx i (List.mem_cons_self _ _))).1

theorem afterParent_reach (P : Params K dim) (goal : Config K dim)
    (s : TreeState K dim) (newCfg : Config K dim) (nearby : List ℕ)
    (p : ℕ) (c : K) (t3 : ℕ)
    (hnear : ∀ i ∈ nearby, i < s.n)
    (hp : p < s.n) (hc : c = s.cost p + P.nrm (s.node p - newCfg))
    (hval : ∃ tt, P.oracle tt newCfg = true) :
    Relation.ReflTransGen (Step P.nrm (Validated P)) s
      (afterParent P goal s newCfg nearby p c t3).2.1 := by
  have hstep1 : Step P.nrm (Validated P) s (pushNode s newCfg c (p : ℤ)) :=
    Step.push s newCfg p c hp (Or.inl hc) hval
  have hr1 : Relation.ReflTransGen (Step P.nrm (Validated P))
      (pushNode s newCfg c (p : ℤ))
      (rewire P s.n nearby (pushNode s newCfg c (p : ℤ)) t3).1 :=
    rewire_reach P s.n nearby _ t3
      (fun i hi => lt_trans (hnear i hi) (Nat.lt_succ_self _))
      (Nat.lt_succ_self _)
  have hreach2 : Relation.ReflTransGen (Step P.nrm (Validated P)) s
      (rewire P s.n nearby (pushNode s newCfg c (p : ℤ)) t3).1 :=
    Relation.ReflTransGen.trans (Relation.ReflTransGen.single hstep1) hr1
  set s1 := pushNode s newCfg c (p : ℤ) with hs1
  set rwp := rewire P s.n nearby s1 t3 with hrwp
  have hs2n : rwp.1.n = s.n + 1 := by
    rw [hrwp, rewire_n]
    rfl
  have hs2node : rwp.1.node s.n = newCfg := by
    rw [hrwp, rewire_node]
    exact pushNode_node_last
  have hs2cost : rwp.1.cost s.n = c := by
    rw [hrwp, rewire_cost_notmem P s.n nearby s1 t3 s.n
      (fun i hi => by have := hnear i hi; omega)]
    exact pushNode_cost_last
  by_cases h1 : P.nrm (goal - newCfg) < P.goalThreshold
  · by_cases h2 : 1 / 1000000 < P.nrm (newCfg - goal)
    · by_cases h3 : P.oracle rwp.2 goal
      · have hstep2 : Step P.nrm (Validated P) rwp.1
            (pushNode rwp.1 goal (c + P.nrm (goal - newCfg)) ((s.n : ℕ) : ℤ)) := by
          have hc2 : c + P.nrm (goal - newCfg) =
              rwp.1.cost s.n + P.nrm (goal - rwp.1.node s.n) := by
            rw [hs2node, hs2cost]
          exact Step.push rwp.1 goal s.n (c + P.nrm (goal - newCfg))
            (by omega) (Or.inr hc2) ⟨rwp.2, h3⟩
        have hr2 : Relation.ReflTransGen (Step P.nrm (Validated P))
            (pushNode rwp.1 goal (c + P.nrm (goal - newCfg)) ((s.n : ℕ) : ℤ))
            (rewire P rwp.1.n nearby
              (pushNode rwp.1 goal (c + P.nrm (goal - newCfg)) ((s.n : ℕ) : ℤ))
              (rwp.2 + 1)).1 :=
          rewire_reach P rwp.1.n nearby _ (rwp.2 + 1)
            (fun i hi => by
              have := hnear i hi
              simp only [pushNode_n]
              omega)
            (by simp only [pushNode_n]; omega)
        have hfinal : Relation.ReflTransGen (Step P.nrm (Validated P)) s
            (rewire P rwp.1.n nearby
              (pushNode rwp.1 goal (c + P.nrm (goal - newCfg)) ((s.n : ℕ) : ℤ))
              (rwp.2 + 1)).1 :=
          Relation.ReflTransGen.trans hreach2
            (Relation.ReflTransGen.trans (Relation.ReflTransGen.single hstep2) hr2)
        simp only [afterParent, if_pos h1, if_pos h2, if_pos h3]
        exact hfinal
      · simp only [afterParent, if_pos h1, if_pos h2, if_neg h3]
        exact hreach2
    · simp only [afterParent, if_pos h1, if_neg h2]
      exact hreach2
  · simp only [afterParent, if_neg h1]
    exact hreach2

theorem planIteration_reach (P : Params K dim) (goal : Config K dim)
    (inp : IterIn K dim) (s : TreeState K dim) (t : ℕ) :
    Relation.ReflTransGen (Step P.nrm (Validated P)) s
      (planIteration P goal inp s t).2.1 := by
  simp only [planIteration]
  split
  · exact Relation.ReflTransGen.refl
  · rename_i p c t3 heq
    obtain ⟨hpmem, hceq, hval⟩ := chooseParent_spec P s _ _ _ heq
    exact afterParent_reach P goal s _ _ p c t3 (findNearby_lt P s _)
      (findNearby_lt P s _ p hpmem) hceq hval

theorem planLoop_reach (P : Params K dim) (goal : Config K dim)
    (ins : ℕ → IterIn K dim) :
    ∀ (fuel k : ℕ) (s : TreeState K dim) (t : ℕ),
      Relation.ReflTransGen (Step P.nrm (Validated P)) s
        (match planLoop P goal ins fuel k s t with
          | Sum.inl r => r.2.2
          | Sum.inr r => r.1) := by
  intro fuel
  induction fuel with
  | zero => intro k s t; exact Relation.ReflTransGen.refl
  | succ f ih =>
    intro k s t
    rw [planLoop]
    rcases hit : planIteration P goal (ins k) s t with ⟨ores, s', t'⟩
    have hreach : Relation.ReflTransGen (Step P.nrm (Validated P)) s s' := by
      have := planIteration_reach P goal (ins k) s t
      rw [hit] at this
      exact this
    cases ores with
    | some r =>
      simp only
      exact hreach
    | none =>
      simp only
      exact Relation.ReflTransGen.trans hreach (ih (k + 1) s' t')

/-- Every tree state accessible through the `nodes`/`costs`/`parents` attributes
after a `plan` call is reachable from the initial tree by planner mutations. -/
theorem plan_state_reach (P : Params K dim) (start goal : Config K dim)
    (ins : ℕ → IterIn K dim) :
    Reach P.nrm start (Validated P) (plan P start goal ins).2.2 := by
  unfold plan Reach
  have := planLoop_reach P goal ins P.maxIterations 0 (initState start) 0
  rcases hpl : planLoop P goal ins P.maxIterations 0 (initState start) 0 with r | r
  · rw [hpl] at this
    simp only
    exact this
  · rw [hpl] at this
    simp only
    exact this

/-- When the main loop runs out of iterations without an early goal return,
`plan` returns the path extracted to the node closest to the goal, paired with
that node's stored cost (rrt_star.py lines 500-508). -/
theorem plan_exhaustion (P : Params K dim) (start goal : Config K dim)
    (ins : ℕ → IterIn K dim) {s : TreeState K dim} {t : ℕ}
    (h : planLoop P goal ins P.maxIterations 0 (initState start) 0 = Sum.inr (s, t)) :
    plan P start goal ins =
      (extractPathList s (closestIdx P s goal), s.cost (closestIdx P s goal), s) := by
  unfold plan
  rw [h]

/-- Candidate configuration computed by `_steer` before its validity check:
the target itself when within `step_size`, else one `step_size` step along the
normalized direction. -/
def steerCand (P : Params K dim) (a b : Config K dim) : Config K dim :=
  if P.nrm (b - a) < P.stepSize then b
  else a + P.stepSize • (P.nrm (b - a))⁻¹ • (b - a)

theorem steer_eq (P : Params K dim) (t : ℕ) (a b : Config K dim) :
    steer P t a b =
      (if P.oracle t (steerCand P a b) then steerCand P a b else a, t + 1) := by
  by_cases h : P.nrm (b - a) < P.stepSize
  · simp only [steer, steerCand, if_pos h]
    split <;> rfl
  · simp only [steer, steerCand, if_neg h]
    split <;> rfl

/-- The in-place update performed by `_rewire` strictly decreases the stored
cost of the rewired node: under exactly the source's conditions (the neighbour
is not the new node's parent, the cost guard holds, and the validity call
passes) the new cost is `cost_through_new < costs[idx]`. -/
theorem rewireOne_decreases (P : Params K dim) (newIdx i : ℕ)
    (s : TreeState K dim) (t : ℕ)
    (h1 : ¬ ((i : ℤ) = s.par newIdx))
    (h2 : s.cost newIdx + P.nrm (s.node i - s.node newIdx) < s.cost i)
    (h3 : P.oracle t (s.node newIdx) = true) :
    (rewireOne P newIdx i (s, t)).1.cost i < s.cost i := by
  simp only [rewireOne, if_neg h1, if_pos h2, if_pos h3]
  simpa [Function.update_same] using h2

/-- The insert phase always appends the steered configuration at index `s.n`,
and the tree strictly grows. -/
theorem afterParent_appends (P : Params K dim) (goal : Config K dim)
    (s : TreeState K dim) (newCfg : Config K dim) (nearby : List ℕ)
    (p : ℕ) (c : K) (t3 : ℕ) (hnear : ∀ i ∈ nearby, i < s.n) :
    (afterParent P goal s newCfg nearby p c t3).2.1.node s.n = newCfg ∧
      s.n < (afterParent P goal s newCfg nearby p c t3).2.1.n := by
  simp only [afterParent]
  set s1 := pushNode s newCfg c (p : ℤ) with hs1
  set rwp := rewire P s.n nearby s1 t3 with hrwp
  have hnode : rwp.1.node s.n = newCfg := by
    rw [hrwp, rewire_node]
    exact pushNode_node_last
  have hn2 : rwp.1.n = s.n + 1 := by
    rw [hrwp, rewire_n]
    rfl
  by_cases h1 : P.nrm (goal - newCfg) < P.goalThreshold
  · by_cases h2 : 1 / 1000000 < P.nrm (newCfg - goal)
    · by_cases h3 : P.oracle rwp.2 goal
      · rw [if_pos h1, if_pos h2, if_pos h3]
        constructor
        · simp only
          rw [rewire_node, pushNode_node_lt (by omega)]
          exact hnode
        · simp only
          rw [rewire_n, pushNode_n, hn2]
          omega
      · rw [if_pos h1, if_pos h2, if_neg h3]
        exact ⟨hnode, by rw [hn2]; omega⟩
    · rw [if_pos h1, if_neg h2]
      exact ⟨hnode, by rw [hn2]; omega⟩
  · rw [if_neg h1]
    exact ⟨hnode, by rw [hn2]; omega⟩

/-- When the steered candidate fails its validity call, `_steer` hands back the
nearest node's own configuration, and if `_choose_parent` still finds a finite
cost parent, that identical configuration is appended as a new tree node. -/
theorem planIteration_failed_steer (P : Params K dim) (goal : Config K dim)
    (inp : IterIn K dim) (s : TreeState K dim) (t : ℕ)
    (sres : Config K dim × ℕ)
    (hs : (if inp.useGoal then (goal, t) else sampleRandomConfig P inp.draws t) = sres)
    (hfail : P.oracle sres.2 (steerCand P (s.node (findNearest P s sres.1)) sres.1) = false)
    {p : ℕ} {c : K} {t3 : ℕ}
    (hsome : chooseParent P s (sres.2 + 1) (s.node (findNearest P s sres.1))
        (findNearby P s (s.node (findNearest P s sres.1))) = (some (p, c), t3)) :
    (planIteration P goal inp s t).2.1.node s.n = s.node (findNearest P s sres.1) ∧
      s.n < (planIteration P goal inp s t).2.1.n := by
  have hsteer : steer P sres.2 (s.node (findNearest P s sres.1)) sres.1 =
      (s.node (findNearest P s sres.1), sres.2 + 1) := by
    rw [steer_eq, hfail]
    simp
  simp only [planIteration, hs, hsteer]
  rw [hsome]
  exact afterParent_appends P goal s _ _ p c t3 (findNearby_lt P s _)

end RRT

namespace Runs

/-!
Concrete, fully evaluated `plan` runs over one-dimensional rational joint
space, where `np.linalg.norm` is exactly `fun v => |v 0|`.  These instantiate
single-joint robots with the planner parameters shown; the oracles encode
moving-obstacle snapshots (`_is_collision_free` re-reads the tracker on every
call, so the t-th call may differ from the (t+1)-th on the same configuration).
-/

/-- Euclidean norm of a one-dimensional joint-difference vector. -/
def qnrm : RRT.Config ℚ 1 → ℚ := fun v => |v 0|

/-- Obstacle-snapshot oracle of the first run: the 11th, 15th, 16th and 25th
validity calls see an obstacle, all others pass. -/
def oracle1 : ℕ → RRT.Config ℚ 1 → Bool := fun t _ =>
  !(t == 11 || t == 15 || t == 16 || t == 25)

def P1 : RRT.Params ℚ 1 :=
  { nrm := qnrm, oracle := oracle1, stepSize := 10, searchRadius := 10,
    goalThreshold := 1 / 10, maxIterations := 6 }

/-- Uniform draws of run 1, one constant value per iteration. -/
def drawVal : ℕ → ℚ := fun k =>
  if k = 3 then 14 else if k = 4 then 15 else if k = 5 then 12 else 100

def ins1 : ℕ → RRT.IterIn ℚ 1 := fun k => ⟨false, fun _ => fun _ => drawVal k⟩

def start1 : RRT.Config ℚ 1 := fun _ => 0

def goal1 : RRT.Config ℚ 1 := fun _ => 1000

/-- Run 1: six iterations growing nodes `0, 10, 20, 30, 14, 15, 12`; the sixth
iteration rewires node 4 through node 6 (cost 26 down to 14), leaving node 5
with stale stored cost 27 while its parent chain now costs 14 + 1. -/
def run1 := RRT.plan P1 start1 goal1 ins1

/-- Obstacle oracle rejecting everything. -/
def oracleF : ℕ → RRT.Config ℚ 1 → Bool := fun _ _ => false

def P2 : RRT.Params ℚ 1 :=
  { nrm := qnrm, oracle := oracleF, stepSize := 10, searchRadius := 10,
    goalThreshold := 1 / 10, maxIterations := 1 }

def ins2 : ℕ → RRT.IterIn ℚ 1 := fun _ => ⟨false, fun _ => fun _ => 100⟩

/-- Run 2: every validity call fails, yet the tree still contains the root
start configuration, which was never validity-checked. -/
def run2 := RRT.plan P2 start1 goal1 ins2

/-- Obstacle oracle of run 3: only the steering validity call (the second call
of the run, index 1) fails. -/
def oracle3 : ℕ → RRT.Config ℚ 1 → Bool := fun t _ => !(t == 1)

def P3 : RRT.Params ℚ 1 :=
  { nrm := qnrm, oracle := oracle3, stepSize := 10, searchRadius := 10,
    goalThreshold := 1 / 10, maxIterations := 1 }

/-- Run 3: the steered candidate is rejected, `_steer` falls back to the
nearest node's configuration, `_choose_parent` accepts it, and the tree ends up
with two nodes holding the identical configuration `0`. -/
def run3 := RRT.plan P3 start1 goal1 ins2

/-- Parameters with a zero iteration budget (exhaustion is immediate). -/
def P0 : RRT.Params ℚ 1 :=
  { nrm := qnrm, oracle := oracleF, stepSize := 10, searchRadius := 10,
    goalThreshold := 1 / 10, maxIterations := 0 }

/-- Hand-built two-node tree used to exercise a single rewire update. -/
def wState : RRT.TreeState ℚ 1 :=
  { n := 2
    node := fun i => fun _ => if i = 1 then 5 else 0
    cost := fun i => if i = 1 then 9 else 0
    par := fun i => if i = 1 then 0 else -1 }

def cfg5 : RRT.Config ℚ 1 := fun _ => 5

def cfg100 : RRT.Config ℚ 1 := fun _ => 100

end Runs

/-- C1 counterexample: at the end of the concrete `plan` run `run1`, node 5 is
in the tree and its stored cost (27) strictly exceeds the stored cost of its
parent (node 4, cost 14) plus the joint-space distance between them (1): the
sixth iteration rewired node 4, leaving the child's cost stale, so the claimed
invariant `cost(node) ≤ cost(parent) + dist(parent, node)` fails at a point of
a plan run. -/
theorem claim1_counterexample :
    5 < Runs.run1.2.2.n ∧
      Runs.run1.2.2.cost ((Runs.run1.2.2.par 5).toNat) +
          Runs.P1.nrm
            (Runs.run1.2.2.node 5 - Runs.run1.2.2.node ((Runs.run1.2.2.par 5).toNat)) <
        Runs.run1.2.2.cost 5 := by
  decide

/-- C1 (amended): every rewire update performed during `plan` strictly
decreases the stored cost of the rewired node, and on every reachable tree
state costs are monotone along parent edges (no node's stored cost is below its
parent's); the originally claimed upper bound `cost ≤ cost(parent) + dist` can
fail for children of re-parented nodes, as the counterexample shows. -/
theorem claim1_amended {K : Type} [LinearOrderedField K] {dim : ℕ}
    (P : RRT.Params K dim) (hn : ∀ v, 0 ≤ P.nrm v) :
    (∀ (newIdx i : ℕ) (s : RRT.TreeState K dim) (t : ℕ),
        ¬ ((i : ℤ) = s.par newIdx) →
        s.cost newIdx + P.nrm (s.node i - s.node newIdx) < s.cost i →
        P.oracle t (s.node newIdx) = true →
        (RRT.rewireOne P newIdx i (s, t)).1.cost i < s.cost i) ∧
    (∀ (start : RRT.Config K dim) (s : RRT.TreeState K dim),
        RRT.Reach P.nrm start (RRT.Validated P) s →
        ∀ i, 0 < i → i < s.n → s.cost (s.par i).toNat ≤ s.cost i) :=
  ⟨fun newIdx i s t h1 h2 h3 => RRT.rewireOne_decreases P newIdx i s t h1 h2 h3,
   fun start s hr i h0 hi => (RRT.inv_of_reach hn hr).mono i h0 hi⟩

/-- C1 witness: the amended statement applied to a concrete rewire (cost drops
from 9 to 5) and to a concrete two-node reachable tree. -/
theorem claim1_witness :
    ((RRT.rewireOne Runs.P1 0 1 (Runs.wState, 0)).1.cost 1 < Runs.wState.cost 1) ∧
    (∀ i, 0 < i → i < (RRT.pushNode (RRT.initState Runs.start1) Runs.cfg5 5 ((0 : ℕ) : ℤ)).n →
      (RRT.pushNode (RRT.initState Runs.start1) Runs.cfg5 5 ((0 : ℕ) : ℤ)).cost
          (((RRT.pushNode (RRT.initState Runs.start1) Runs.cfg5 5 ((0 : ℕ) : ℤ)).par i).toNat) ≤
        (RRT.pushNode (RRT.initState Runs.start1) Runs.cfg5 5 ((0 : ℕ) : ℤ)).cost i) :=
  ⟨(claim1_amended Runs.P1 (fun v => abs_nonneg (v 0))).1 0 1 Runs.wState 0
      (by decide) (by decide) (by decide),
   (claim1_amended Runs.P1 (fun v => abs_nonneg (v 0))).2 Runs.start1 _
      (Relation.ReflTransGen.single
        (RRT.Step.push (RRT.initState Runs.start1) Runs.cfg5 0 5
          (by decide) (Or.inl (by decide)) ⟨0, by decide⟩))⟩

/-- C2 counterexample: `plan` run `run2` ends with the root start configuration
in the tree although the composite validity check rejects that configuration at
every call of the run — `plan` inserts the root without ever validating it. -/
theorem claim2_counterexample :
    Runs.run2.2.2.n = 1 ∧ Runs.run2.2.2.node 0 = Runs.start1 ∧
      ∀ t, Runs.P2.oracle t (Runs.run2.2.2.node 0) = false :=
  ⟨by decide, by decide, fun t => rfl⟩

/-- C2 (amended): every node of the final tree of a `plan` run other than the
root passed an `_is_collision_free` call before insertion (through
`_choose_parent` for steered nodes and through the explicit goal check for an
appended goal node); the root start node is inserted without any validity
check. -/
theorem claim2_amended {K : Type} [LinearOrderedField K] {dim : ℕ}
    (P : RRT.Params K dim) (start goal : RRT.Config K dim)
    (ins : ℕ → RRT.IterIn K dim) (hn : ∀ v, 0 ≤ P.nrm v) :
    ∀ i, 0 < i → i < (RRT.plan P start goal ins).2.2.n →
      ∃ t, P.oracle t ((RRT.plan P start goal ins).2.2.node i) = true :=
  fun i h0 hi =>
    (RRT.inv_of_reach hn (RRT.plan_state_reach P start goal ins)).valid i h0 hi

/-- C2 witness: the amended statement applied to run 3, whose node 1 was
validated by the third oracle call. -/
theorem claim2_witness :
    ∃ t, Runs.P3.oracle t (Runs.run3.2.2.node 1) = true :=
  claim2_amended Runs.P3 Runs.start1 Runs.goal1 Runs.ins2
    (fun v => abs_nonneg (v 0)) 1 (by decide) (by decide)

/-- C3: on every tree state reachable during a `plan` run, the parent-index
walk of `_extract_path` from any node reaches the root sentinel `-1` within
`n` steps (parent pointers never cycle), and the extracted path's first element
is the tree root, i.e. the start configuration. -/
theorem claim3_theorem {K : Type} [LinearOrderedField K] {dim : ℕ}
    (P : RRT.Params K dim) (start : RRT.Config K dim) (s : RRT.TreeState K dim)
    (hn : ∀ v, 0 ≤ P.nrm v) (hreach : RRT.Reach P.nrm start (RRT.Validated P) s) :
    ∀ i, i < s.n →
      (∃ k, k ≤ s.n ∧ (RRT.pnext s)^[k] (i : ℤ) = -1) ∧
      ∃ l, RRT.extractAux s s.n (i : ℤ) = some l ∧ l.head? = some start := by
  intro i hi
  have hinv := RRT.inv_of_reach hn hreach
  have hterm := RRT.walk_reaches_root hinv i hi
  refine ⟨hterm, ?_⟩
  obtain ⟨l, h1, h2, h3⟩ := RRT.extractAux_some hinv s.n i hi hterm
  refine ⟨l, h1, ?_⟩
  rw [h3, hinv.node0]

/-- C3 witness: termination and root-headed extraction at node 5 of the final
tree of run 1. -/
theorem claim3_witness :
    (∃ k, k ≤ Runs.run1.2.2.n ∧ (RRT.pnext Runs.run1.2.2)^[k] ((5 : ℕ) : ℤ) = -1) ∧
    ∃ l, RRT.extractAux Runs.run1.2.2 Runs.run1.2.2.n ((5 : ℕ) : ℤ) = some l ∧
      l.head? = some Runs.start1 :=
  claim3_theorem Runs.P1 Runs.start1 Runs.run1.2.2 (fun v => abs_nonneg (v 0))
    (RRT.plan_state_reach Runs.P1 Runs.start1 Runs.goal1 Runs.ins1) 5 (by decide)

/-- C7: when the main loop exhausts `max_iterations` without an early
goal-reached return, `plan` still returns: the result is the path extracted to
the tree node at minimum joint-space distance to the goal (first minimum, as
`dists_to_goal.index(min(...))` computes) together with that node's stored
cost. -/
theorem claim7_theorem {K : Type} [LinearOrderedField K] {dim : ℕ}
    (P : RRT.Params K dim) (start goal : RRT.Config K dim)
    (ins : ℕ → RRT.IterIn K dim) {s : RRT.TreeState K dim} {t : ℕ}
    (h : RRT.planLoop P goal ins P.maxIterations 0 (RRT.initState start) 0 =
      Sum.inr (s, t)) :
    RRT.plan P start goal ins =
      (RRT.extractPathList s (RRT.closestIdx P s goal),
        s.cost (RRT.closestIdx P s goal), s) := by
  unfold RRT.plan
  rw [h]

/-- C7 witness: the zero-iteration run returns the degenerate nearest-to-goal
result built from the initial tree. -/
theorem claim7_witness :
    RRT.plan Runs.P0 Runs.start1 Runs.goal1 Runs.ins2 =
      (RRT.extractPathList (RRT.initState Runs.start1)
          (RRT.closestIdx Runs.P0 (RRT.initState Runs.start1) Runs.goal1),
        (RRT.initState Runs.start1).cost
          (RRT.closestIdx Runs.P0 (RRT.initState Runs.start1) Runs.goal1),
        RRT.initState Runs.start1) :=
  claim7_theorem Runs.P0 Runs.start1 Runs.goal1 Runs.ins2 rfl

/-- C10: (i) whenever the steered candidate fails its validity call, `_steer`
returns the nearest node's own configuration unchanged; (ii) if
`_choose_parent` then returns a finite-cost parent, the iteration appends that
identical configuration as a new tree node, so a rejected steering attempt
still grows the tree; (iii) concretely, run 3 ends with two tree nodes holding
the same joint configuration. -/
theorem claim10_theorem {K : Type} [LinearOrderedField K] {dim : ℕ} :
    (∀ (P : RRT.Params K dim) (t : ℕ) (a b : RRT.Config K dim),
        P.oracle t (RRT.steerCand P a b) = false →
        RRT.steer P t a b = (a, t + 1)) ∧
    (∀ (P : RRT.Params K dim) (goal : RRT.Config K dim) (inp : RRT.IterIn K dim)
        (s : RRT.TreeState K dim) (t : ℕ) (sres : RRT.Config K dim × ℕ),
        ((if inp.useGoal then (goal, t) else RRT.sampleRandomConfig P inp.draws t) = sres) →
        P.oracle sres.2
            (RRT.steerCand P (s.node (RRT.findNearest P s sres.1)) sres.1) = false →
        ∀ (p : ℕ) (c : K) (t3 : ℕ),
          RRT.chooseParent P s (sres.2 + 1) (s.node (RRT.findNearest P s sres.1))
              (RRT.findNearby P s (s.node (RRT.findNearest P s sres.1))) =
            (some (p, c), t3) →
          (RRT.planIteration P goal inp s t).2.1.node s.n =
              s.node (RRT.findNearest P s sres.1) ∧
            s.n < (RRT.planIteration P goal inp s t).2.1.n) ∧
    (Runs.run3.2.2.n = 2 ∧ Runs.run3.2.2.node 1 = Runs.run3.2.2.node 0) := by
  refine ⟨?_, ?_, ?_, ?_⟩
  · intro P t a b hf
    rw [RRT.steer_eq, hf]
    simp
  · intro P goal inp s t sres hs hfail p c t3 hsome
    exact RRT.planIteration_failed_steer P goal inp s t sres hs hfail hsome
  · decide
  · rfl

/-- C10 witness: the steering failure of run 3 at oracle call 1 returns the
start configuration unchanged. -/
theorem claim10_witness :
    RRT.steer Runs.P3 1 Runs.start1 Runs.cfg100 = (Runs.start1, 2) ∧
      Runs.run3.2.2.n = 2 :=
  ⟨(@claim10_theorem ℚ _ 1).1 Runs.P3 1 Runs.start1 Runs.cfg100 (by decide),
   (@claim10_theorem ℚ _ 1).2.2.1⟩

/-- Bridge between the source comparison `np.linalg.norm(v) < c` and the
square-comparison form used by the executable embedding: for a nonnegative
radicand `s` (a sum of squares), `Real.sqrt s < c ↔ 0 < c ∧ s < c ^ 2`. -/
theorem sqrt_lt_iff_sq_lt (s c : ℝ) (hs : 0 ≤ s) :
    Real.sqrt s < c ↔ 0 < c ∧ s < c ^ 2 := by
  constructor
  · intro h
    have hc : 0 < c := lt_of_le_of_lt (Real.sqrt_nonneg s) h
    refine ⟨hc, ?_⟩
    calc s = Real.sqrt s ^ 2 := (Real.sq_sqrt hs).symm
    _ < c ^ 2 := by
      have := Real.sqrt_nonneg s
      nlinarith
  · rintro ⟨hc, hlt⟩
    have h2 := Real.sqrt_lt_sqrt hs hlt
    rwa [Real.sqrt_sq hc.le] at h2

/-- Euclidean norm of a one-component vector is the absolute value, so the
1-dof instances above use exactly `np.linalg.norm`. -/
theorem norm1_eq_abs (x : ℝ) : Real.sqrt (x ^ 2) = |x| := Real.sqrt_sq_eq_abs x

namespace IK

variable {K : Type} [LinearOrderedField K] {n : ℕ}

/-- Static joint-limit table hardcoded inside `DifferentialIKSolver.solve`
(ik_solver.py lines 121-130): exactly the seven Franka Panda `(lower, upper)`
pairs, written as exact rationals for the decimal literals of the source. -/
def jointLimits (K : Type) [LinearOrderedField K] : Fin 7 → K × K :=
  ![(-(29671 / 10000), 29671 / 10000),
    (-(18326 / 10000), 18326 / 10000),
    (-(29671 / 10000), 29671 / 10000),
    (-(31416 / 10000), 0),
    (-(29671 / 10000), 29671 / 10000),
    (-(873 / 10000), 38223 / 10000),
    (-(29671 / 10000), 29671 / 10000)]

/-- Default damping of the solver constructor (`damping=0.001`,
ik_solver.py line 8). -/
def dampingDefault (K : Type) [LinearOrderedField K] : K := 1 / 1000

/-- Damping value passed by every solver construction in this repository
(`damping=0.05`: main_v1.py line 82, grasp_execution.py line 17, and the test
drivers). -/
def referenceDamping (K : Type) [LinearOrderedField K] : K := 5 / 100

/-- Per-iteration joint-limit clamping (ik_solver.py lines 169-177): the loop
runs over `range(min(len(new_joints), len(joint_limits)))`, so exactly the
first `min(N, 7)` entries are clamped and all later entries are untouched. -/
def clampJoints (q : Fin n → K) : Fin n → K := fun i =>
  if h : (i : ℕ) < 7 then
    if q i < (jointLimits K ⟨i, h⟩).1 then (jointLimits K ⟨i, h⟩).1
    else if (jointLimits K ⟨i, h⟩).2 < q i then (jointLimits K ⟨i, h⟩).2
    else q i
  else q i

/-- Numerical Jacobian `get_jacobian` (lines 70-115): finite differences with
delta `1e-3`; rows 0-2 hold position sensitivities, rows 3-5 the vector part of
the quaternion difference divided by delta.  `fk` abstracts the deterministic
pybullet forward kinematics of the shadow robot and `qdiff` abstracts
`p.getDifferenceQuaternion`. -/
def jacobian (fk : (Fin n → K) → (Fin 3 → K) × (Fin 4 → K))
    (qdiff : (Fin 4 → K) → (Fin 4 → K) → (Fin 4 → K)) (q : Fin n → K) :
    Matrix (Fin 6) (Fin n) K :=
  Matrix.of fun r i =>
    if h3 : (r : ℕ) < 3 then
      ((fk (Function.update q i (q i + 1 / 1000))).1 ⟨r, h3⟩ - (fk q).1 ⟨r, h3⟩) /
        (1 / 1000)
    else
      qdiff (fk q).2 (fk (Function.update q i (q i + 1 / 1000))).2
          ⟨(r : ℕ) - 3, by omega⟩ /
        (1 / 1000)

/-- Damped least-squares normal matrix `J.T @ J + damping * np.eye(n)`
(lines 160-164). -/
def normalMat (J : Matrix (Fin 6) (Fin n) K) (damping : K) :
    Matrix (Fin n) (Fin n) K :=
  J.transpose * J + damping • (1 : Matrix (Fin n) (Fin n) K)

/-- Joint update `np.linalg.solve(J.T @ J + damping*I, J.T @ error)` (lines
161-164): `np.linalg.solve` returns the unique solution of the linear system,
embedded here through Cramer's rule (`A⁻¹ = det⁻¹ • adjugate A`); the normal
equation theorem below shows this vector solves the system whenever the
damping is positive. -/
def dlsDeltaQ (J : Matrix (Fin 6) (Fin n) K) (damping : K) (err : Fin 6 → K) :
    Fin n → K :=
  (normalMat J damping).det⁻¹ •
    (normalMat J damping).adjugate.mulVec (J.transpose.mulVec err)

/-- Squared Euclidean norm of a 3-vector. -/
def sqNorm3 (v : Fin 3 → K) : K := v 0 ^ 2 + v 1 ^ 2 + v 2 ^ 2

/-- Comparison `np.linalg.norm(v) < c` in square-free form; equivalent to the
source's comparison by `sqrt_lt_iff_sq_lt`. -/
def normLt3 (v : Fin 3 → K) (c : K) : Bool :=
  decide (0 < c) && decide (sqNorm3 v < c ^ 2)

/-- The 6-vector `np.concatenate([pos_error, orn_error])`. -/
def errVec (posErr ornErr : Fin 3 → K) : Fin 6 → K := fun r =>
  if h : (r : ℕ) < 3 then posErr ⟨r, h⟩ else ornErr ⟨(r : ℕ) - 3, by omega⟩

/-- Orientation error: the vector part (first three components) of
`p.getDifferenceQuaternion(current_orn, target_orn)` (lines 146-147). -/
def ornErrOf (qdiff : (Fin 4 → K) → (Fin 4 → K) → (Fin 4 → K))
    (orn targetOrn : Fin 4 → K) : Fin 3 → K :=
  fun j => qdiff orn targetOrn ⟨(j : ℕ), by omega⟩

/-- Iteration loop of `DifferentialIKSolver.solve` (lines 138-191): compute the
pose errors, stop as soon as both error norms are below tolerance (returning
the current joints), otherwise apply the damped least-squares update, clamp
against the static limit table and continue; an exhausted budget returns the
last configuration (no failure path). -/
def solveLoop (fk : (Fin n → K) → (Fin 3 → K) × (Fin 4 → K))
    (qdiff : (Fin 4 → K) → (Fin 4 → K) → (Fin 4 → K)) (damping : K)
    (targetPos : Fin 3 → K) (targetOrn : Fin 4 → K) (tol : K) :
    ℕ → (Fin n → K) → Fin n → K
  | 0, q => q
  | m + 1, q =>
      if normLt3 (targetPos - (fk q).1) tol &&
          normLt3 (ornErrOf qdiff (fk q).2 targetOrn) tol then q
      else
        solveLoop fk qdiff damping targetPos targetOrn tol m
          (clampJoints (q + dlsDeltaQ (jacobian fk qdiff q) damping
            (errVec (targetPos - (fk q).1) (ornErrOf qdiff (fk q).2 targetOrn))))

/-- Entry point `solve(target_pos, target_orn, current_joint_positions,
max_iters, tolerance)` of the solver. -/
def solve (fk : (Fin n → K) → (Fin 3 → K) × (Fin 4 → K))
    (qdiff : (Fin 4 → K) → (Fin 4 → K) → (Fin 4 → K)) (damping : K)
    (targetPos : Fin 3 → K) (targetOrn : Fin 4 → K) (q0 : Fin n → K)
    (maxIters : ℕ) (tol : K) : Fin n → K :=
  solveLoop fk qdiff damping targetPos targetOrn tol maxIters q0

theorem dotProduct_self_nonneg (v : Fin n → K) : 0 ≤ Matrix.dotProduct v v :=
  Finset.sum_nonneg fun i _ => mul_self_nonneg (v i)

/-- The damped normal matrix is positive definite for positive damping. -/
theorem normalMat_posdef (J : Matrix (Fin 6) (Fin n) K) (damping : K)
    (hd : 0 < damping) (x : Fin n → K) (hx : x ≠ 0) :
    0 < Matrix.dotProduct x ((normalMat J damping).mulVec x) := by
  have h1 : (normalMat J damping).mulVec x =
      J.transpose.mulVec (J.mulVec x) + damping • x := by
    simp [normalMat, Matrix.add_mulVec, Matrix.smul_mulVec_assoc,
      Matrix.one_mulVec, Matrix.mulVec_mulVec]
  rw [h1, Matrix.dotProduct_add]
  have h2 : Matrix.dotProduct x (J.transpose.mulVec (J.mulVec x)) =
      Matrix.dotProduct (J.mulVec x) (J.mulVec x) := by
    rw [Matrix.dotProduct_mulVec, Matrix.vecMul_transpose]
  have h3 : Matrix.dotProduct x (damping • x) =
      damping * Matrix.dotProduct x x := by
    rw [Matrix.dotProduct_smul]
    simp
  have h4 : 0 < Matrix.dotProduct x x := by
    rcases lt_or_eq_of_le (dotProduct_self_nonneg x) with h | h
    · exact h
    · exact absurd (Matrix.dotProduct_self_eq_zero.mp h.symm) hx
  rw [h2, h3]
  have h5 : 0 ≤ Matrix.dotProduct (J.mulVec x) (J.mulVec x) :=
    Finset.sum_nonneg fun i _ => mul_self_nonneg _
  nlinarith

theorem normalMat_det_ne_zero (J : Matrix (Fin 6) (Fin n) K) (damping : K)
    (hd : 0 < damping) : (normalMat J damping).det ≠ 0 := by
  intro h0
  obtain ⟨v, hv0, hv⟩ := Matrix.exists_mulVec_eq_zero_iff.mpr h0
  have hpos := normalMat_posdef J damping hd v hv0
  rw [hv] at hpos
  simp at hpos

/-- Cramer-rule update solves the normal equation for positive damping. -/
theorem dls_solves (J : Matrix (Fin 6) (Fin n) K) (damping : K)
    (hd : 0 < damping) (err : Fin 6 → K) :
    (normalMat J damping).mulVec (dlsDeltaQ J damping err) =
      J.transpose.mulVec err := by
  unfold dlsDeltaQ
  rw [Matrix.mulVec_smul, Matrix.mulVec_mulVec, Matrix.mul_adjugate,
    Matrix.smul_mulVec_assoc, Matrix.one_mulVec, smul_smul,
    inv_mul_cancel₀ (normalMat_det_ne_zero J damping hd), one_smul]

/-- Each joint limit pair has its lower bound at or below its upper bound. -/
theorem jointLimits_le (K : Type) [LinearOrderedField K] :
    ∀ j : Fin 7, (jointLimits K j).1 ≤ (jointLimits K j).2 := by
  intro j
  fin_cases j <;> norm_num [jointLimits]

/-- All clamped entries lie within the static limits. -/
def InLimits (q : Fin n → K) : Prop :=
  ∀ (i : Fin n) (h7 : (i : ℕ) < 7),
    (jointLimits K ⟨i, h7⟩).1 ≤ q i ∧ q i ≤ (jointLimits K ⟨i, h7⟩).2

theorem clampJoints_inLimits (q : Fin n → K) : InLimits (clampJoints q) := by
  intro i h7
  unfold clampJoints
  rw [dif_pos h7]
  have hle := jointLimits_le K ⟨i, h7⟩
  by_cases hlo : q i < (jointLimits K ⟨i, h7⟩).1
  · rw [if_pos hlo]
    exact ⟨le_refl _, hle⟩
  · rw [if_neg hlo]
    by_cases hhi : (jointLimits K ⟨i, h7⟩).2 < q i
    · rw [if_pos hhi]
      exact ⟨hle, le_refl _⟩
    · rw [if_neg hhi]
      exact ⟨not_lt.mp hlo, not_lt.mp hhi⟩

theorem solveLoop_inLimits (fk : (Fin n → K) → (Fin 3 → K) × (Fin 4 → K))
    (qdiff : (Fin 4 → K) → (Fin 4 → K) → (Fin 4 → K)) (damping : K)
    (targetPos : Fin 3 → K) (targetOrn : Fin 4 → K) (tol : K) :
    ∀ (m : ℕ) (q : Fin n → K), InLimits q →
      InLimits (solveLoop fk qdiff damping targetPos targetOrn tol m q) := by
  intro m
  induction m with
  | zero => intro q h; exact h
  | succ m ih =>
    intro q h
    rw [solveLoop]
    split
    · exact h
    · exact ih _ (clampJoints_inLimits _)

end IK

namespace RunsIK

/-- Concrete one-joint forward kinematics: end-effector position copies the
joint angle, orientation constant. -/
def fk1 : (Fin 1 → ℚ) → (Fin 3 → ℚ) × (Fin 4 → ℚ) :=
  fun q => (fun _ => q 0, fun _ => 0)

/-- Concrete quaternion difference: identically zero. -/
def qd0 : (Fin 4 → ℚ) → (Fin 4 → ℚ) → (Fin 4 → ℚ) := fun _ _ => fun _ => 0

/-- Constant seven-joint forward kinematics. -/
def fk7 : (Fin 7 → ℚ) → (Fin 3 → ℚ) × (Fin 4 → ℚ) :=
  fun _ => (fun _ => 0, fun _ => 0)

def q100 : Fin 7 → ℚ := fun _ => 100

def tp10 : Fin 3 → ℚ := fun _ => 10

def or0 : Fin 4 → ℚ := fun _ => 0

def q1z : Fin 1 → ℚ := fun _ => 0

/-- Eight-joint configuration whose joint 7 holds 1000. -/
def q8 : Fin 8 → ℚ := fun i => if (i : ℕ) = 7 then 1000 else 0

end RunsIK

/-- C4 counterexample: `solve` called with `max_iters = 0` returns the initial
configuration unchanged, so with an out-of-limits initial joint (100) the
returned configuration violates the static joint limit of joint 1 — the claim
fails for some calls (any call that performs no update iteration). -/
theorem claim4_counterexample :
    IK.solve RunsIK.fk7 RunsIK.qd0 (IK.dampingDefault ℚ) RunsIK.tp10 RunsIK.or0
        RunsIK.q100 0 (1 / 1000) = RunsIK.q100 ∧
      (IK.jointLimits ℚ 0).2 < RunsIK.q100 0 :=
  ⟨rfl, by decide⟩

/-- C4 (amended): whenever `solve` performs at least one Δq update before
returning (the iteration budget is positive and the first tolerance test
fails), every joint among the first `min(N, 7)` of the returned configuration
lies within its static `[lower, upper]` limit; a call that returns before any
update (zero budget, or tolerance already met) hands back the initial
configuration unclamped, and joints beyond index 7 are never clamped (C9). -/
theorem claim4_amended {K : Type} [LinearOrderedField K] {n : ℕ}
    (fk : (Fin n → K) → (Fin 3 → K) × (Fin 4 → K))
    (qdiff : (Fin 4 → K) → (Fin 4 → K) → (Fin 4 → K)) (damping : K)
    (targetPos : Fin 3 → K) (targetOrn : Fin 4 → K) (tol : K)
    (m : ℕ) (q0 : Fin n → K)
    (hbreak : ¬((IK.normLt3 (targetPos - (fk q0).1) tol &&
        IK.normLt3 (IK.ornErrOf qdiff (fk q0).2 targetOrn) tol) = true)) :
    ∀ (i : Fin n) (h7 : (i : ℕ) < 7),
      (IK.jointLimits K ⟨i, h7⟩).1 ≤
          IK.solve fk qdiff damping targetPos targetOrn q0 (m + 1) tol i ∧
        IK.solve fk qdiff damping targetPos targetOrn q0 (m + 1) tol i ≤
          (IK.jointLimits K ⟨i, h7⟩).2 := by
  have hstep : IK.solve fk qdiff damping targetPos targetOrn q0 (m + 1) tol =
      IK.solveLoop fk qdiff damping targetPos targetOrn tol m
        (IK.clampJoints (q0 + IK.dlsDeltaQ (IK.jacobian fk qdiff q0) damping
          (IK.errVec (targetPos - (fk q0).1) (IK.ornErrOf qdiff (fk q0).2 targetOrn)))) := by
    unfold IK.solve
    rw [IK.solveLoop, if_neg hbreak]
  rw [hstep]
  exact IK.solveLoop_inLimits fk qdiff damping targetPos targetOrn tol m _
    (IK.clampJoints_inLimits _)

/-- C4 witness: a one-joint solve with one update iteration whose first
tolerance test fails; the theorem yields the limit membership of joint 0. -/
theorem claim4_witness :
    (IK.jointLimits ℚ ⟨((0 : Fin 1) : ℕ), by decide⟩).1 ≤
        IK.solve RunsIK.fk1 RunsIK.qd0 (IK.referenceDamping ℚ) RunsIK.tp10
          RunsIK.or0 RunsIK.q1z 1 1 0 ∧
      IK.solve RunsIK.fk1 RunsIK.qd0 (IK.referenceDamping ℚ) RunsIK.tp10
          RunsIK.or0 RunsIK.q1z 1 1 0 ≤
        (IK.jointLimits ℚ ⟨((0 : Fin 1) : ℕ), by decide⟩).2 :=
  claim4_amended RunsIK.fk1 RunsIK.qd0 (IK.referenceDamping ℚ) RunsIK.tp10
    RunsIK.or0 1 0 RunsIK.q1z (by decide) 0 (by decide)

/-- C5: on every IK iteration that does not meet the tolerance test, the joint
update applied by `solve` is `Δq = dlsDeltaQ`, and that vector satisfies the
damped least-squares normal equation `(JᵀJ + λI) Δq = Jᵀe` for the instance's
fixed damping constant `λ > 0`; the reference value passed by every solver
construction in this repository is 0.05. -/
theorem claim5_theorem {K : Type} [LinearOrderedField K] {n : ℕ}
    (fk : (Fin n → K) → (Fin 3 → K) × (Fin 4 → K))
    (qdiff : (Fin 4 → K) → (Fin 4 → K) → (Fin 4 → K)) (damping : K)
    (hd : 0 < damping) (targetPos : Fin 3 → K) (targetOrn : Fin 4 → K)
    (tol : K) (m : ℕ) (q : Fin n → K)
    (hbreak : ¬((IK.normLt3 (targetPos - (fk q).1) tol &&
        IK.normLt3 (IK.ornErrOf qdiff (fk q).2 targetOrn) tol) = true)) :
    IK.solveLoop fk qdiff damping targetPos targetOrn tol (m + 1) q =
      IK.solveLoop fk qdiff damping targetPos targetOrn tol m
        (IK.clampJoints (q + IK.dlsDeltaQ (IK.jacobian fk qdiff q) damping
          (IK.errVec (targetPos - (fk q).1)
            (IK.ornErrOf qdiff (fk q).2 targetOrn)))) ∧
    (IK.normalMat (IK.jacobian fk qdiff q) damping).mulVec
        (IK.dlsDeltaQ (IK.jacobian fk qdiff q) damping
          (IK.errVec (targetPos - (fk q).1)
            (IK.ornErrOf qdiff (fk q).2 targetOrn))) =
      (IK.jacobian fk qdiff q).transpose.mulVec
        (IK.errVec (targetPos - (fk q).1)
          (IK.ornErrOf qdiff (fk q).2 targetOrn)) ∧
    IK.referenceDamping K = 5 / 100 := by
  refine ⟨?_, IK.dls_solves _ damping hd _, rfl⟩
  rw [IK.solveLoop, if_neg hbreak]

/-- C5 witness: the normal-equation property at a concrete one-joint iteration
with the reference damping 0.05. -/
theorem claim5_witness :
    IK.solveLoop RunsIK.fk1 RunsIK.qd0 (IK.referenceDamping ℚ) RunsIK.tp10
        RunsIK.or0 1 1 RunsIK.q1z =
      IK.solveLoop RunsIK.fk1 RunsIK.qd0 (IK.referenceDamping ℚ) RunsIK.tp10
        RunsIK.or0 1 0
        (IK.clampJoints (RunsIK.q1z +
          IK.dlsDeltaQ (IK.jacobian RunsIK.fk1 RunsIK.qd0 RunsIK.q1z)
            (IK.referenceDamping ℚ)
            (IK.errVec (RunsIK.tp10 - (RunsIK.fk1 RunsIK.q1z).1)
              (IK.ornErrOf RunsIK.qd0 (RunsIK.fk1 RunsIK.q1z).2 RunsIK.or0)))) ∧
    (IK.normalMat (IK.jacobian RunsIK.fk1 RunsIK.qd0 RunsIK.q1z)
        (IK.referenceDamping ℚ)).mulVec
        (IK.dlsDeltaQ (IK.jacobian RunsIK.fk1 RunsIK.qd0 RunsIK.q1z)
          (IK.referenceDamping ℚ)
          (IK.errVec (RunsIK.tp10 - (RunsIK.fk1 RunsIK.q1z).1)
            (IK.ornErrOf RunsIK.qd0 (RunsIK.fk1 RunsIK.q1z).2 RunsIK.or0))) =
      (IK.jacobian RunsIK.fk1 RunsIK.qd0 RunsIK.q1z).transpose.mulVec
        (IK.errVec (RunsIK.tp10 - (RunsIK.fk1 RunsIK.q1z).1)
          (IK.ornErrOf RunsIK.qd0 (RunsIK.fk1 RunsIK.q1z).2 RunsIK.or0)) ∧
    IK.referenceDamping ℚ = 5 / 100 :=
  claim5_theorem RunsIK.fk1 RunsIK.qd0 (IK.referenceDamping ℚ) (by decide)
    RunsIK.tp10 RunsIK.or0 1 0 RunsIK.q1z (by decide)

/-- C9: the per-iteration clamping uses the hardcoded table of exactly seven
Franka Panda limit pairs and touches only the first `min(N, 7)` entries:
entries at index 7 and beyond are never clamped, and for an 8-joint
configuration the unclamped joint 7 may hold a value (1000) outside every
limit pair of the table. -/
theorem claim9_theorem {K : Type} [LinearOrderedField K] :
    (∀ (n : ℕ) (q : Fin n → K) (i : Fin n), 7 ≤ (i : ℕ) →
        IK.clampJoints q i = q i) ∧
    (IK.jointLimits ℚ 0 = (-(29671 / 10000), 29671 / 10000) ∧
      IK.jointLimits ℚ 3 = (-(31416 / 10000), 0)) ∧
    (IK.clampJoints RunsIK.q8 ⟨7, by omega⟩ = 1000 ∧
      ∀ j : Fin 7, (IK.jointLimits ℚ j).2 < 1000) := by
  refine ⟨?_, ⟨?_, ?_⟩, ?_, ?_⟩
  · intro n q i h7
    unfold IK.clampJoints
    rw [dif_neg (by omega)]
  · rfl
  · rfl
  · decide
  · decide

/-- C9 witness: joint 7 of the eight-joint configuration passes through the
clamping unchanged. -/
theorem claim9_witness :
    IK.clampJoints RunsIK.q8 ⟨7, by omega⟩ = RunsIK.q8 ⟨7, by omega⟩ :=
  (claim9_theorem (K := ℚ)).1 8 RunsIK.q8 ⟨7, by omega⟩ (by decide)

namespace Collision

variable {K : Type} [LinearOrderedField K]

/-- Sphere-approximated obstacle as reported by
`ObstacleTracker.get_all_obstacle_states`: a centre position and a radius. -/
structure Obstacle (K : Type) where
  position : Fin 3 → K
  radius : K

/-- Squared Euclidean distance between 3-D points. -/
def sqDist3 (a b : Fin 3 → K) : K :=
  (a 0 - b 0) ^ 2 + (a 1 - b 1) ^ 2 + (a 2 - b 2) ^ 2

/-- Comparison `np.linalg.norm(link_pos - obstacle_pos) < c` of
`_is_state_in_collision` (rrt_star.py line 197) in square form; equivalent to
the source's comparison by `sqrt_lt_iff_sq_lt`, the radicand being a sum of
squares. -/
def distLt (a b : Fin 3 → K) (c : K) : Bool :=
  decide (0 < c) && decide (sqDist3 a b < c ^ 2)

/-- Collision predicate of `_is_state_in_collision` (lines 145-205) as a
function of the per-call data: the world positions of the checked link frames
(arm joints plus end effector, queried from pybullet under the hypothetical
configuration) and the obstacle snapshot (`None`, or a list whose `None`
entries are skipped).  True iff some checked link is within `radius + 0.05` of
some obstacle centre; an absent or empty snapshot returns `False` at once. -/
def stateInCollision (links : List (Fin 3 → K))
    (obs : Option (List (Option (Obstacle K)))) : Bool :=
  match obs with
  | none => false
  | some l =>
      if l.length = 0 then false
      else
        links.any fun lp =>
          l.any fun o =>
            match o with
            | none => false
            | some ob => distLt lp ob.position (ob.radius + 5 / 100)

/-- Height check `_is_ee_height_valid` (lines 207-231): the end-effector
z-coordinate must exceed the base height plus the fixed 1 cm margin. -/
def eeHeightValid (eeZ baseH : K) : Bool := decide (baseH + 1 / 100 < eeZ)

/-- Composite validity check `_is_collision_free` (lines 233-239). -/
def collisionFree (eeZ baseH : K) (links : List (Fin 3 → K))
    (obs : Option (List (Option (Obstacle K)))) : Bool :=
  eeHeightValid eeZ baseH && !stateInCollision links obs

theorem distLt_false_iff (a b : Fin 3 → K) (c : K) :
    distLt a b c = false ↔ c ≤ 0 ∨ c ^ 2 ≤ sqDist3 a b := by
  simp [distLt, not_lt, imp_iff_not_or]

theorem stateInCollision_false_iff (links : List (Fin 3 → K))
    (obs : Option (List (Option (Obstacle K)))) :
    stateInCollision links obs = false ↔
      ∀ lp ∈ links, ∀ l, obs = some l → ∀ ob : Obstacle K, some ob ∈ l →
        distLt lp ob.position (ob.radius + 5 / 100) = false := by
  cases obs with
  | none => simp [stateInCollision]
  | some l =>
    cases l with
    | nil => simp [stateInCollision]
    | cons o rest =>
      simp only [stateInCollision, List.length_cons, Option.some_inj]
      rw [if_neg (by omega)]
      constructor
      · intro h lp hlp l' hl' ob hob
        subst hl'
        have h1 : ((o :: rest).any fun o' =>
            match o' with
            | none => false
            | some ob => distLt lp ob.position (ob.radius + 5 / 100)) = false :=
          Bool.eq_false_iff.mpr (List.any_eq_false.mp h lp hlp)
        have h2 := List.any_eq_false.mp h1 (some ob) hob
        simpa using h2
      · intro h
        have hin : ∀ lp ∈ links, ((o :: rest).any fun o' =>
            match o' with
            | none => false
            | some ob => distLt lp ob.position (ob.radius + 5 / 100)) = false := by
          intro lp hlp
          refine List.any_eq_false.mpr ?_
          intro o' ho'
          cases o' with
          | none => simp
          | some ob => simpa using h lp hlp (o :: rest) rfl ob ho'
        refine List.any_eq_false.mpr ?_
        intro lp hlp
        exact Bool.eq_false_iff.mp (hin lp hlp)

end Collision

/-- C6: the composite validity check returns true iff both sub-checks pass:
the end-effector z-coordinate exceeds the table-height threshold (base height
plus the fixed 1 cm margin), and every checked link frame is at Euclidean
distance at least `radius + 0.05` from every current obstacle's centre (stated
in square form, equivalent by `sqrt_lt_iff_sq_lt`); when the obstacle snapshot
is absent or empty the obstacle sub-check passes automatically. -/
theorem claim6_theorem {K : Type} [LinearOrderedField K] (eeZ baseH : K)
    (links : List (Fin 3 → K))
    (obs : Option (List (Option (Collision.Obstacle K)))) :
    (Collision.collisionFree eeZ baseH links obs = true ↔
      (baseH + 1 / 100 < eeZ ∧
        ∀ lp ∈ links, ∀ l, obs = some l → ∀ ob : Collision.Obstacle K,
          some ob ∈ l →
            ob.radius + 5 / 100 ≤ 0 ∨
              (ob.radius + 5 / 100) ^ 2 ≤ Collision.sqDist3 lp ob.position)) ∧
    Collision.stateInCollision links (none (α := List (Option (Collision.Obstacle K)))) = false ∧
    Collision.stateInCollision links (some ([] : List (Option (Collision.Obstacle K)))) = false := by
  refine ⟨?_, rfl, rfl⟩
  unfold Collision.collisionFree Collision.eeHeightValid
  rw [Bool.and_eq_true, decide_eq_true_iff, Bool.not_eq_true',
    Collision.stateInCollision_false_iff]
  constructor
  · rintro ⟨h1, h2⟩
    refine ⟨h1, ?_⟩
    intro lp hlp l hl ob hob
    exact (Collision.distLt_false_iff _ _ _).mp (h2 lp hlp l hl ob hob)
  · rintro ⟨h1, h2⟩
    refine ⟨h1, ?_⟩
    intro lp hlp l hl ob hob
    exact (Collision.distLt_false_iff _ _ _).mpr (h2 lp hlp l hl ob hob)

namespace PyState

variable {K : Type} [LinearOrderedField K]

/-- Externally observable pybullet joint-position state: joint index to joint
position.  The save/restore discipline of the source reads and writes
positions only (`p.getJointState(...)[0]` and `p.resetJointState(idx, val)`). -/
abbrev World (K : Type) := ℕ → K

/-- Sequence of `p.getJointState(robot, i)[0]` reads over the arm joints
(rrt_star.py lines 158-161 and 65-68). -/
def getJointStates (σ : World K) (arm : List ℕ) : List K := arm.map σ

/-- Sequence of `p.resetJointState(robot, idx, vals[i])` writes over the arm
joints (lines 163-165, 201-203, 70-72, 79-81). -/
def setJointStates (σ : World K) (arm : List ℕ) (vals : List K) : World K :=
  (arm.zip vals).foldl (fun f pr => Function.update f pr.1 pr.2) σ

/-- `_is_state_in_collision` with its pybullet state threading (lines
145-205): save the arm joint positions, write the hypothetical configuration,
query the link positions (through `linkPos`, a function of the world state as
`p.getLinkState` is), and restore the saved positions on every return path,
including the early no-obstacle return. -/
def isStateInCollisionSt (linkPos : World K → ℕ → Fin 3 → K)
    (linksToCheck : List ℕ) (arm : List ℕ) (q : List K)
    (obs : Option (List (Option (Collision.Obstacle K)))) (σ : World K) :
    Bool × World K :=
  let saved := getJointStates σ arm
  let σ1 := setJointStates σ arm q
  match obs with
  | none => (false, setJointStates σ1 arm saved)
  | some l =>
      if l.length = 0 then (false, setJointStates σ1 arm saved)
      else
        (linksToCheck.any fun li =>
          l.any fun o =>
            match o with
            | none => false
            | some ob =>
                Collision.distLt (linkPos σ1 li) ob.position (ob.radius + 5 / 100),
          setJointStates σ1 arm saved)

/-- `_get_current_ee_pose` (lines 56-83): the same save/write/query/restore
discipline around an end-effector pose query. -/
def getCurrentEePoseSt (eePose : World K → (Fin 3 → K) × (Fin 4 → K))
    (arm : List ℕ) (q : List K) (σ : World K) :
    ((Fin 3 → K) × (Fin 4 → K)) × World K :=
  let saved := getJointStates σ arm
  let σ1 := setJointStates σ arm q
  (eePose σ1, setJointStates σ1 arm saved)

/-- `_is_ee_height_valid` (lines 207-231). -/
def isEeHeightValidSt (eePose : World K → (Fin 3 → K) × (Fin 4 → K))
    (baseH : K) (arm : List ℕ) (q : List K) (σ : World K) : Bool × World K :=
  let r := getCurrentEePoseSt eePose arm q σ
  (decide (baseH + 1 / 100 < r.1.1 2), r.2)

/-- `_is_collision_free` (lines 233-239); Python's short-circuit `and` runs
the obstacle check only when the height check passes. -/
def isCollisionFreeSt (eePose : World K → (Fin 3 → K) × (Fin 4 → K))
    (linkPos : World K → ℕ → Fin 3 → K) (linksToCheck : List ℕ) (baseH : K)
    (arm : List ℕ) (q : List K)
    (obs : Option (List (Option (Collision.Obstacle K)))) (σ : World K) :
    Bool × World K :=
  let h := isEeHeightValidSt eePose baseH arm q σ
  if h.1 then
    let cres := isStateInCollisionSt linkPos linksToCheck arm q obs h.2
    (!cres.1, cres.2)
  else (false, h.2)

theorem setJointStates_notmem (vals : List K) (σ : World K) :
    ∀ (arm : List ℕ) (j : ℕ), j ∉ arm → setJointStates σ arm vals j = σ j := by
  intro arm
  induction arm generalizing vals σ with
  | nil => intro j _; rfl
  | cons a rest ih =>
    intro j hj
    cases vals with
    | nil =>
      show setJointStates σ (a :: rest) [] j = σ j
      simp [setJointStates]
    | cons v vs =>
      show setJointStates (Function.update σ a v) rest vs j = σ j
      rw [ih vs _ j (fun hm => hj (List.mem_cons_of_mem _ hm))]
      exact Function.update_noteq
        (fun he => hj (by rw [he]; exact List.mem_cons_self _ _)) _ _

/-- Writing the previously saved joint positions restores the state exactly,
for any intermediate state agreeing with the original outside the arm. -/
theorem setJointStates_restore (σ : World K) :
    ∀ (arm : List ℕ) (σ' : World K), (∀ j, j ∉ arm → σ' j = σ j) →
      setJointStates σ' arm (getJointStates σ arm) = σ := by
  intro arm
  induction arm with
  | nil =>
    intro σ' h
    funext j
    exact h j (by simp)
  | cons a rest ih =>
    intro σ' h
    show setJointStates (Function.update σ' a (σ a)) rest (getJointStates σ rest) = σ
    apply ih
    intro j hj
    by_cases hja : j = a
    · rw [hja, Function.update_same]
    · rw [Function.update_noteq hja]
      exact h j (by simp [hja, hj])

theorem roundTrip (σ : World K) (arm : List ℕ) (q : List K) :
    setJointStates (setJointStates σ arm q) arm (getJointStates σ arm) = σ :=
  setJointStates_restore σ arm _ (fun j hj => setJointStates_notmem q σ arm j hj)

theorem isStateInCollisionSt_state (linkPos : World K → ℕ → Fin 3 → K)
    (linksToCheck arm : List ℕ) (q : List K)
    (obs : Option (List (Option (Collision.Obstacle K)))) (σ : World K) :
    (isStateInCollisionSt linkPos linksToCheck arm q obs σ).2 = σ := by
  unfold isStateInCollisionSt
  cases obs with
  | none => exact roundTrip σ arm q
  | some l =>
    by_cases hl : l.length = 0
    · simp only [if_pos hl]
      exact roundTrip σ arm q
    · simp only [if_neg hl]
      exact roundTrip σ arm q

theorem getCurrentEePoseSt_state (eePose : World K → (Fin 3 → K) × (Fin 4 → K))
    (arm : List ℕ) (q : List K) (σ : World K) :
    (getCurrentEePoseSt eePose arm q σ).2 = σ :=
  roundTrip σ arm q

end PyState

/-- C8: every validity check leaves the externally observable joint-position
state exactly as it found it — `_is_collision_free`, its height sub-check, the
collision sub-check and the underlying pose query all save the arm joint
positions, write the hypothetical configuration, and restore the saved values
before returning, for any tested configuration and any outcome. -/
theorem claim8_theorem {K : Type} [LinearOrderedField K]
    (eePose : PyState.World K → (Fin 3 → K) × (Fin 4 → K))
    (linkPos : PyState.World K → ℕ → Fin 3 → K) (linksToCheck : List ℕ)
    (baseH : K) (arm : List ℕ) (q : List K)
    (obs : Option (List (Option (Collision.Obstacle K))))
    (σ : PyState.World K) :
    (PyState.isCollisionFreeSt eePose linkPos linksToCheck baseH arm q obs σ).2 = σ ∧
    (PyState.isStateInCollisionSt linkPos linksToCheck arm q obs σ).2 = σ ∧
    (PyState.getCurrentEePoseSt eePose arm q σ).2 = σ := by
  refine ⟨?_, PyState.isStateInCollisionSt_state _ _ _ _ _ _,
    PyState.getCurrentEePoseSt_state _ _ _ _⟩
  have hh : (PyState.isEeHeightValidSt eePose baseH arm q σ).2 = σ :=
    PyState.getCurrentEePoseSt_state eePose arm q σ
  simp only [PyState.isCollisionFreeSt]
  by_cases hc : (PyState.isEeHeightValidSt eePose baseH arm q σ).1 = true
  · rw [if_pos hc, hh]
    exact PyState.isStateInCollisionSt_state _ _ _ _ _ _
  · rw [if_neg hc]
    exact hh
